import Mathlib

/-!
# A rule-guarded finite-state machine over a directed multigraph

Shallow embedding of `main.go`: the `State`, `Link` and `StateMachine` types, the
package-level identifier counters, the setup operations `Init`, `NewState`,
`LinkStates`, `NewRule`, and the event-processing operations `FireEvent` and `Compute`.

The graph store is gonum's `multi.DirectedGraph`, an external library.  It is embedded
as far as the program uses it: `AddNode`, `SetLine`, `Node`, `From` and `Lines`.

Go leaves the iteration order of a map unspecified.  Every place where the program
ranges over a map (the successors reported by `From`, the parallel lines reported by
`Lines`, the entries of a rule map) is therefore driven by an explicit `Sched`, and
statements that hold "for every order" quantify over all valid schedules.

A Go run-time failure (a failed type assertion, an index out of range, gonum's
node-collision check) is the value `none` of the enclosing `Option`.
-/

namespace FSM

/-! ## Data model -/

/-- The Go type `Event` (a string). -/
abbrev Event := String

/-- The Go type `Operator` (a string). -/
abbrev Operator := String

/-- The payloads a `State` carries in its `Value interface{}` field: the untyped nil and
the dynamic types that `State.String` distinguishes.  Floats are kept as their bit
patterns; the engine never inspects a payload. -/
inductive Any where
  | nil
  | int (v : Int)
  | float32 (bits : Nat)
  | float64 (bits : Nat)
  | bool (b : Bool)
  | string (s : String)
  deriving DecidableEq, Repr

/-- The Go struct `State`. -/
structure State where
  Id : Int
  Value : Any
  deriving DecidableEq, Repr

/-- The zero value `State{}`. -/
def State.zero : State := ⟨0, Any.nil⟩

/-- The method `State.ID`. -/
def State.ID (n : State) : Int := n.Id

/-- The Go struct `Link`.  The endpoints are the `State`s handed to `LinkStates`; the
rule map is the list of its entries (a Go map has each key once). -/
structure Link where
  Id : Int
  T : State
  F : State
  Rules : List (Operator × Event)
  deriving DecidableEq, Repr

/-- The method `Link.From`. -/
def Link.From (l : Link) : State := l.F

/-- The method `Link.To`. -/
def Link.To (l : Link) : State := l.T

/-- The method `Link.ID`. -/
def Link.ID (l : Link) : Int := l.Id

/-- The method `Link.ReversedLine`: endpoints swapped, zero id and nil rules. -/
def Link.ReversedLine (l : Link) : Link := { Id := 0, T := l.F, F := l.T, Rules := [] }

/-- A Go error value: `nil` or an error carrying a message. -/
abbrev error := Option String

/-- The error that `FireEvent` builds with `errors.New`. -/
def unsupportedOperator : error := some "UNSUPPORTED_COMPARISON_OPERATOR"

/-! ## The package-level counters -/

/-- Wrap-around of Go's 64-bit `int` arithmetic. -/
def wrapInt (n : Int) : Int := (n + 2 ^ 63) % 2 ^ 64 - 2 ^ 63

/-- The package variables `NodeIdCntr` and `LineIdCntr`. -/
structure Counters where
  NodeIdCntr : Int
  LineIdCntr : Int
  deriving DecidableEq, Repr

/-- The counters as the package initialises them: `NodeIdCntr = 0`, `LineIdCntr = 1`. -/
def Counters.initial : Counters := ⟨0, 1⟩

/-! ## The graph store (gonum `multi.DirectedGraph`) -/

/-- The part of gonum's `multi.DirectedGraph` the program observes.  `nodes` is the map
from node id to node, each node stored under its own `ID()`.  `lines` is the map
`from[fid][tid][lid]`, each line stored under the ids of its endpoints and its own id.
The mirror index `to` and the id pools are never read by the program. -/
structure DirectedGraph where
  nodes : List State
  lines : List Link
  deriving DecidableEq, Repr

/-- The constructor `multi.NewDirectedGraph`. -/
def NewDirectedGraph : DirectedGraph := ⟨[], []⟩

/-- The method `DirectedGraph.Node`: the node stored under `id`, if any. -/
def DirectedGraph.Node (g : DirectedGraph) (id : Int) : Option State :=
  g.nodes.find? (fun n => n.ID == id)

/-- The method `DirectedGraph.AddNode`: fails (a Go panic) on an id collision. -/
def DirectedGraph.AddNode (g : DirectedGraph) (n : State) : Option DirectedGraph :=
  match g.Node n.ID with
  | some _ => none
  | none => some { g with nodes := g.nodes ++ [n] }

/-- The endpoint step of `SetLine`: an absent node is added, a present one is replaced
by the endpoint of the line. -/
def DirectedGraph.setNode (g : DirectedGraph) (n : State) : DirectedGraph :=
  match g.Node n.ID with
  | none => { g with nodes := g.nodes ++ [n] }
  | some _ => { g with nodes := g.nodes.map (fun m => if m.ID == n.ID then n else m) }

/-- Two lines are stored under the same key of `from[fid][tid][lid]`. -/
def Link.sameKey (a b : Link) : Bool :=
  a.From.ID == b.From.ID && a.To.ID == b.To.ID && a.ID == b.ID

/-- The method `DirectedGraph.SetLine`: both endpoints are registered, then the line is
stored under `(fid, tid, lid)`, replacing a line already stored under that key. -/
def DirectedGraph.SetLine (g : DirectedGraph) (l : Link) : DirectedGraph :=
  let g1 := g.setNode l.From
  let g2 := g1.setNode l.To
  { g2 with lines := g2.lines.filter (fun m => !(m.sameKey l)) ++ [l] }

/-- The keys of `from[id]`: the ids of the nodes that a line leaving `id` reaches, each
once.  The method `From` iterates over these keys in an order the schedule chooses. -/
def DirectedGraph.fromKeys (g : DirectedGraph) (id : Int) : List Int :=
  ((g.lines.filter (fun l => l.From.ID == id)).map (fun l => l.To.ID)).dedup

/-- The values of `from[uid][vid]`: the parallel lines from `uid` to `vid`.  The method
`Lines` collects them in an order the schedule chooses. -/
def DirectedGraph.linesBetween (g : DirectedGraph) (uid vid : Int) : List Link :=
  g.lines.filter (fun l => l.From.ID == uid && l.To.ID == vid)

/-! ## Iteration order -/

/-- The iteration orders of one `FireEvent` call: the order in which `From` yields the
successor ids, the order in which `Lines` collects parallel lines, and the order in
which the range over the rule map of a line yields its entries. -/
structure Sched where
  nodes : List Int → List Int
  lines : List Link → List Link
  rules : Link → List (Operator × Event)

/-- A schedule is valid when each order is a rearrangement of what is iterated. -/
def Sched.Valid (σ : Sched) : Prop :=
  (∀ ks, (σ.nodes ks).Perm ks) ∧ (∀ ls, (σ.lines ls).Perm ls) ∧
    (∀ l : Link, (σ.rules l).Perm l.Rules)

/-- The schedule that iterates everything in stored order. -/
def Sched.stored : Sched := ⟨fun ks => ks, fun ls => ls, fun l => l.Rules⟩

/-- The schedule that iterates everything in reverse stored order. -/
def Sched.reversed : Sched :=
  ⟨fun ks => ks.reverse, fun ls => ls.reverse, fun l => l.Rules.reverse⟩

/-! ## The engine -/

/-- The Go struct `StateMachine`. -/
structure StateMachine where
  PresentState : State
  g : DirectedGraph
  deriving DecidableEq, Repr

/-- The constructor `New`: zero present state, empty graph. -/
def New : StateMachine := ⟨State.zero, NewDirectedGraph⟩

/-- The method `Init`.  The present state is assigned before `AddNode` runs; a collision
in `AddNode` aborts the call. -/
def StateMachine.Init (c : Counters) (s : StateMachine) (initStateValue : Any) :
    Option (Counters × StateMachine × State) :=
  let s1 : StateMachine := { s with PresentState := ⟨c.NodeIdCntr, initStateValue⟩ }
  match s1.g.AddNode s1.PresentState with
  | none => none
  | some g1 =>
    some ({ c with NodeIdCntr := wrapInt (c.NodeIdCntr + 1) }, { s1 with g := g1 },
      s1.PresentState)

/-- The method `NewState`. -/
def StateMachine.NewState (c : Counters) (s : StateMachine) (stateValue : Any) :
    Option (Counters × StateMachine × State) :=
  let state : State := ⟨c.NodeIdCntr, stateValue⟩
  match s.g.AddNode state with
  | none => none
  | some g1 =>
    some ({ c with NodeIdCntr := wrapInt (c.NodeIdCntr + 1) }, { s with g := g1 }, state)

/-- The method `LinkStates`. -/
def StateMachine.LinkStates (c : Counters) (s : StateMachine) (s1 s2 : State)
    (rule : List (Operator × Event)) : Counters × StateMachine :=
  ({ c with LineIdCntr := wrapInt (c.LineIdCntr + 1) },
    { s with g := s.g.SetLine { Id := c.LineIdCntr, T := s2, F := s1, Rules := rule } })

/-- The function `NewRule`: a rule map with the single entry given. -/
def NewRule (triggerConditionOperator : Operator) (comparisonValue : Event) :
    List (Operator × Event) :=
  [(triggerConditionOperator, comparisonValue)]

/-- What the range over one rule map ends in. -/
inductive RuleStep where
  | matched
  | unsupported
  | exhausted
  deriving DecidableEq, Repr

/-- The inner loop of `FireEvent` over the entries of one rule map, in the given order:
an `eq` entry whose value is the event ends the loop in a match, an `eq` entry with
another value is passed over, any other operator ends the loop in the error. -/
def evalRules (e : Event) : List (Operator × Event) → RuleStep
  | [] => RuleStep.exhausted
  | (key, val) :: rest =>
    if key = "eq" then
      if val = e then RuleStep.matched else evalRules e rest
    else RuleStep.unsupported

/-- The outer loop of `FireEvent` over the successor ids that the iterator yields.  For
each id the iterator's node is looked up, the node registered under its `ID()` is
asserted to be a `State`, element 0 of the lines from the present state to it is taken,
and its rules are evaluated. -/
def fireLoop (σ : Sched) (s : StateMachine) (e : Event) :
    List Int → Option (StateMachine × error)
  | [] => some (s, none)
  | k :: rest =>
    match s.g.Node k with
    | none => none
    | some itNode =>
      match s.g.Node itNode.ID with
      | none => none
      | some n =>
        match σ.lines (s.g.linesBetween s.PresentState.Id n.Id) with
        | [] => none
        | line :: _ =>
          match evalRules e (σ.rules line) with
          | RuleStep.matched => some ({ s with PresentState := n }, none)
          | RuleStep.unsupported => some (s, unsupportedOperator)
          | RuleStep.exhausted => fireLoop σ s e rest

/-- The method `FireEvent`: the new machine and the returned error. -/
def StateMachine.FireEvent (σ : Sched) (s : StateMachine) (e : Event) :
    Option (StateMachine × error) :=
  fireLoop σ s e (σ.nodes (s.g.fromKeys s.PresentState.Id))

/-- What a `Compute` call leaves behind: the machine, the two returned values, and the
states whose rendering was printed, in order. -/
structure ComputeResult where
  machine : StateMachine
  ret : State
  err : error
  printed : List State
  deriving DecidableEq, Repr

/-- The loop of `Compute`; the `i`-th `FireEvent` call runs under the schedule `σ i`. -/
def computeLoop (σ : Nat → Sched) (printState : Bool) :
    Nat → StateMachine → List State → List String → Option ComputeResult
  | _, s, out, [] => some ⟨s, s.PresentState, none, out⟩
  | i, s, out, e :: es =>
    match s.FireEvent (σ i) e with
    | none => none
    | some (s1, some msg) => some ⟨s1, State.zero, some msg, out⟩
    | some (s1, none) =>
      computeLoop σ printState (i + 1) s1
        (if printState then out ++ [s1.PresentState] else out) es

/-- The method `Compute`. -/
def StateMachine.Compute (σ : Nat → Sched) (s : StateMachine) (events : List String)
    (printState : Bool) : Option ComputeResult :=
  computeLoop σ printState 0 s [] events

/-! ## Well-formed stores, observation helpers and the fold of `FireEvent` -/

/-- Every endpoint of every stored line is a registered node, as `SetLine` ensures. -/
def DirectedGraph.WF (g : DirectedGraph) : Prop :=
  ∀ l ∈ g.lines, (g.Node l.From.ID).isSome = true ∧ (g.Node l.To.ID).isSome = true

instance (g : DirectedGraph) : Decidable g.WF := by
  unfold DirectedGraph.WF; infer_instance

/-- The lines leaving the node `id`. -/
def DirectedGraph.outgoing (g : DirectedGraph) (id : Int) : List Link :=
  g.lines.filter (fun l => l.From.ID == id)

/-- The line that a `FireEvent` call under `σ` evaluates first, if it evaluates any: the
first line taken for the first successor the iterator yields. -/
def StateMachine.firstEvaluated (σ : Sched) (s : StateMachine) : Option Link :=
  match σ.nodes (s.g.fromKeys s.PresentState.Id) with
  | [] => none
  | k :: _ =>
    match s.g.Node k with
    | none => none
    | some itNode =>
      match s.g.Node itNode.ID with
      | none => none
      | some n => (σ.lines (s.g.linesBetween s.PresentState.Id n.Id)).head?

/-- One step of the fold: fire the event on the machine reached so far, unless an
earlier event already failed. -/
def foldStep (σ : Nat → Sched) (acc : Option (StateMachine × error)) (ie : Nat × Event) :
    Option (StateMachine × error) :=
  match acc with
  | some (m, none) => m.FireEvent (σ ie.1) ie.2
  | other => other

/-- The reading of "repeated `FireEvent` calls": the left fold of `FireEvent` over the
numbered events, starting from the machine with no error and stopping at the first
failing event. -/
def foldFireEvent (σ : Nat → Sched) (s : StateMachine) (es : List Event) :
    Option (StateMachine × error) :=
  es.enum.foldl (foldStep σ) (some (s, none))

/-! ## Concrete machines -/

/-- The wiring of `main`, up to the call of `Compute`: the counters and machine
it leaves, and the two states it created. -/
def mainSetup : Option (Counters × StateMachine × State × State) := do
  let stateMachine := New
  let (c1, m1, initState) ← stateMachine.Init Counters.initial (Any.string "locked")
  let (c2, m2, unlockedSate) ← m1.NewState c1 (Any.string "unlocked")
  let coinRule := NewRule "eqs" "coin"
  let pushRule := NewRule "eq" "push"
  let (c3, m3) := m2.LinkStates c2 initState unlockedSate coinRule
  let (c4, m4) := m3.LinkStates c3 unlockedSate initState pushRule
  let (c5, m5) := m4.LinkStates c4 initState initState pushRule
  let (c6, m6) := m5.LinkStates c5 unlockedSate unlockedSate coinRule
  pure (c6, m6, initState, unlockedSate)

/-- The function `main`: the wiring followed by `Compute` on `["coin", "push"]` with
printing switched on. -/
def main (σ : Nat → Sched) : Option ComputeResult := do
  let (_, stateMachine, _, _) ← mainSetup
  stateMachine.Compute σ ["coin", "push"] true

/-- The turnstile scenario: `locked` from `Init`, `unlocked` from `NewState`, and the
four transitions locked-eq(coin)->unlocked, unlocked-eq(push)->locked,
locked-eq(push)->locked, unlocked-eq(coin)->unlocked. -/
def turnstile : Option (Counters × StateMachine × State × State) := do
  let (c1, m1, locked) ← New.Init Counters.initial (Any.string "locked")
  let (c2, m2, unlocked) ← m1.NewState c1 (Any.string "unlocked")
  let (c3, m3) := m2.LinkStates c2 locked unlocked (NewRule "eq" "coin")
  let (c4, m4) := m3.LinkStates c3 unlocked locked (NewRule "eq" "push")
  let (c5, m5) := m4.LinkStates c4 locked locked (NewRule "eq" "push")
  let (c6, m6) := m5.LinkStates c5 unlocked unlocked (NewRule "eq" "coin")
  pure (c6, m6, locked, unlocked)

/-- Two parallel transitions: states `a` (from `Init`) and `b`, and two `LinkStates`
calls from `a` to `b`, the first with rule eq(x), the second with rule eq(y). -/
def parallelLinks : Option (Counters × StateMachine × State × State) := do
  let (c1, m1, a) ← New.Init Counters.initial (Any.string "a")
  let (c2, m2, b) ← m1.NewState c1 (Any.string "b")
  let (c3, m3) := m2.LinkStates c2 a b (NewRule "eq" "x")
  let (c4, m4) := m3.LinkStates c3 a b (NewRule "eq" "y")
  pure (c4, m4, a, b)

/-- A transition behind an unsupported one: states `a` (from `Init`), `b`, `c`, a
transition a-gt(5)->b and a transition a-eq(go)->c. -/
def guardedBehind : Option (Counters × StateMachine × State × State × State) := do
  let (c1, m1, a) ← New.Init Counters.initial (Any.string "a")
  let (c2, m2, b) ← m1.NewState c1 (Any.string "b")
  let (c3, m3, c) ← m2.NewState c2 (Any.string "c")
  let (c4, m4) := m3.LinkStates c3 a b (NewRule "gt" "5")
  let (c5, m5) := m4.LinkStates c4 a c (NewRule "eq" "go")
  pure (c5, m5, a, b, c)

/-- A transition with a two-entry rule map: states `a` (from `Init`) and `b`, and one
transition from `a` to `b` whose rule map has the entries eq -> go and lt -> 5. -/
def twoEntryRule : Option (Counters × StateMachine × State × State) := do
  let (c1, m1, a) ← New.Init Counters.initial (Any.string "a")
  let (c2, m2, b) ← m1.NewState c1 (Any.string "b")
  let (c3, m3) := m2.LinkStates c2 a b [("eq", "go"), ("lt", "5")]
  pure (c3, m3, a, b)

/-- A self-loop behind a competing transition: states `a` (from `Init`) and `b`, a
transition a-eq(tick)->b and a self-loop a-eq(tick)->a. -/
def loopBehind : Option (Counters × StateMachine × State × State) := do
  let (c1, m1, a) ← New.Init Counters.initial (Any.string "a")
  let (c2, m2, b) ← m1.NewState c1 (Any.string "b")
  let (c3, m3) := m2.LinkStates c2 a b (NewRule "eq" "tick")
  let (c4, m4) := m3.LinkStates c3 a a (NewRule "eq" "tick")
  pure (c4, m4, a, b)

/-- A run that moves and then fails: states `a` (from `Init`) and `b`, a transition
a-eq(x)->b and a transition b-lt(y)->a. -/
def moveThenFail : Option (Counters × StateMachine × State × State) := do
  let (c1, m1, a) ← New.Init Counters.initial (Any.string "a")
  let (c2, m2, b) ← m1.NewState c1 (Any.string "b")
  let (c3, m3) := m2.LinkStates c2 a b (NewRule "eq" "x")
  let (c4, m4) := m3.LinkStates c3 b a (NewRule "lt" "y")
  pure (c4, m4, a, b)

/-- A machine linked before its first allocation: `New`, then `LinkStates` from the
machine's own `PresentState` (still the zero state) to itself, with the counters as the
package initialises them. -/
def linkedBeforeInit : Counters × StateMachine :=
  New.LinkStates Counters.initial New.PresentState New.PresentState (NewRule "eq" "tick")

/-! ## Machines the program can build, and sequences of setup calls -/

/-- The machines the program can build: `New`, followed by calls of `Init`, `NewState`,
`LinkStates`, `FireEvent` and `Compute` that return.  The counters of each call, the
endpoints handed to `LinkStates` and the schedules are arbitrary, so the machines built
with the shared counters and with endpoints returned by `Init` or `NewState` are among
them.  The flag tells whether `Init` has been called. -/
inductive Built : Bool → StateMachine → Prop where
  | new : Built false New
  | init {b : Bool} {c c1 : Counters} {s s1 : StateMachine} {v : Any} {n : State} :
      Built b s → s.Init c v = some (c1, s1, n) → Built true s1
  | newState {b : Bool} {c c1 : Counters} {s s1 : StateMachine} {v : Any} {n : State} :
      Built b s → s.NewState c v = some (c1, s1, n) → Built b s1
  | linkStates {b : Bool} {s : StateMachine} (c : Counters) (s1 s2 : State)
      (rule : List (Operator × Event)) :
      Built b s → Built b (s.LinkStates c s1 s2 rule).2
  | fireEvent {b : Bool} {σ : Sched} {s s1 : StateMachine} {e : Event} {err : error} :
      Built b s → s.FireEvent σ e = some (s1, err) → Built b s1
  | compute {b : Bool} {σ : Nat → Sched} {s : StateMachine} {es : List String}
      {printState : Bool} {r : ComputeResult} :
      Built b s → s.Compute σ es printState = some r → Built b r.machine

/-- One setup call on one of the machines of a process. -/
inductive Call where
  | init (machine : Nat) (v : Any)
  | newState (machine : Nat) (v : Any)
  | linkStates (machine : Nat) (s1 s2 : State) (rule : List (Operator × Event))

/-- A running process: the package counters, the machines created with `New` (numbered),
and a record of the ids allocated so far, oldest first: `stateIds` holds the id of every
`State` that `Init` or `NewState` returned, `lineIds` the id of every transition that
`LinkStates` stored. -/
structure Process where
  counters : Counters
  machines : Nat → StateMachine
  stateIds : List Int
  lineIds : List Int

/-- The process at its start: initial counters, every machine fresh from `New`. -/
def Process.start : Process := ⟨Counters.initial, fun _ => New, [], []⟩

/-- The process after one call; `none` when the call fails (a Go panic). -/
def Process.call (p : Process) : Call → Option Process
  | Call.init i v =>
    match (p.machines i).Init p.counters v with
    | none => none
    | some (c, m, n) =>
      some ⟨c, Function.update p.machines i m, p.stateIds ++ [n.Id], p.lineIds⟩
  | Call.newState i v =>
    match (p.machines i).NewState p.counters v with
    | none => none
    | some (c, m, n) =>
      some ⟨c, Function.update p.machines i m, p.stateIds ++ [n.Id], p.lineIds⟩
  | Call.linkStates i s1 s2 rule =>
    match (p.machines i).LinkStates p.counters s1 s2 rule with
    | (c, m) =>
      match m.g.lines.getLast? with
      | none => some ⟨c, Function.update p.machines i m, p.stateIds, p.lineIds⟩
      | some l => some ⟨c, Function.update p.machines i m, p.stateIds, p.lineIds ++ [l.Id]⟩

/-- The process after a sequence of calls; a failing call ends the run. -/
def Process.run (p : Process) : List Call → Process
  | [] => p
  | c :: cs =>
    match p.call c with
    | none => p
    | some q => q.run cs

/-- The bookkeeping invariant of a process after at most `k` calls: the counters have
not left their range, every recorded id lies below its counter, and the records are
strictly increasing, the first recorded transition id being 1. -/
def Process.Inv (k : Nat) (p : Process) : Prop :=
  (0 ≤ p.counters.NodeIdCntr ∧ p.counters.NodeIdCntr ≤ k) ∧
  (1 ≤ p.counters.LineIdCntr ∧ p.counters.LineIdCntr ≤ k + 1) ∧
  (∀ i ∈ p.stateIds, i < p.counters.NodeIdCntr) ∧
  (∀ i ∈ p.lineIds, i < p.counters.LineIdCntr) ∧
  (p.lineIds = [] → p.counters.LineIdCntr = 1) ∧
  (∀ x, p.lineIds.head? = some x → x = 1) ∧
  p.stateIds.Pairwise (fun a b => a < b) ∧ p.lineIds.Pairwise (fun a b => a < b)

/-- The sequence of `2 ^ 63 + 1` calls of `NewState` on machine 0. -/
def overflowRun : List Call := List.replicate (2 ^ 63 + 1) (Call.newState 0 Any.nil)

/-! ## Basic facts about the store -/

theorem Sched.stored_valid : Sched.stored.Valid :=
  ⟨fun _ => List.Perm.refl _, fun _ => List.Perm.refl _, fun _ => List.Perm.refl _⟩

theorem Sched.reversed_valid : Sched.reversed.Valid :=
  ⟨fun _ => List.reverse_perm _, fun _ => List.reverse_perm _,
    fun _ => List.reverse_perm _⟩

theorem DirectedGraph.Node_id {g : DirectedGraph} {k : Int} {n : State}
    (h : g.Node k = some n) : n.Id = k := by
  unfold DirectedGraph.Node at h
  have := List.find?_some h
  simpa [State.ID] using this

theorem DirectedGraph.mem_outgoing {g : DirectedGraph} {id : Int} {l : Link} :
    l ∈ g.outgoing id ↔ l ∈ g.lines ∧ l.F.Id = id := by
  simp [DirectedGraph.outgoing, Link.From, State.ID]

theorem DirectedGraph.mem_fromKeys {g : DirectedGraph} {id k : Int} :
    k ∈ g.fromKeys id ↔ ∃ l ∈ g.outgoing id, l.T.Id = k := by
  simp [DirectedGraph.fromKeys, DirectedGraph.outgoing, Link.From, Link.To, State.ID]

theorem DirectedGraph.mem_linesBetween {g : DirectedGraph} {u v : Int} {l : Link} :
    l ∈ g.linesBetween u v ↔ l ∈ g.outgoing u ∧ l.T.Id = v := by
  simp [DirectedGraph.linesBetween, DirectedGraph.outgoing, Link.From, Link.To, State.ID,
    and_assoc]

theorem DirectedGraph.WF.node_of_outgoing {g : DirectedGraph} (hg : g.WF) {id : Int}
    {l : Link} (hl : l ∈ g.outgoing id) : ∃ n, g.Node l.T.Id = some n ∧ n.Id = l.T.Id := by
  have h := (hg l (DirectedGraph.mem_outgoing.mp hl).1).2
  simp only [Link.To, State.ID] at h
  obtain ⟨n, hn⟩ := Option.isSome_iff_exists.mp h
  exact ⟨n, hn, DirectedGraph.Node_id hn⟩

theorem DirectedGraph.Node_isSome_iff {g : DirectedGraph} {k : Int} :
    (g.Node k).isSome = true ↔ ∃ n ∈ g.nodes, n.Id = k := by
  simp [DirectedGraph.Node, List.find?_isSome, State.ID]

theorem DirectedGraph.setNode_lines (g : DirectedGraph) (n : State) :
    (g.setNode n).lines = g.lines := by
  unfold DirectedGraph.setNode
  split <;> rfl

/-- The endpoint step of `SetLine` keeps every registered id registered. -/
theorem DirectedGraph.setNode_keeps {g : DirectedGraph} (n : State) {k : Int}
    (h : (g.Node k).isSome = true) : ((g.setNode n).Node k).isSome = true := by
  obtain ⟨m, hm, hmk⟩ := DirectedGraph.Node_isSome_iff.mp h
  apply DirectedGraph.Node_isSome_iff.mpr
  unfold DirectedGraph.setNode
  split
  · exact ⟨m, List.mem_append_left _ hm, hmk⟩
  · by_cases hmn : m.ID = n.ID
    · refine ⟨n, List.mem_map.mpr ⟨m, hm, by simp [hmn]⟩, ?_⟩
      simp only [State.ID] at hmn
      rw [← hmn]; exact hmk
    · exact ⟨m, List.mem_map.mpr ⟨m, hm, by simp [hmn]⟩, hmk⟩

/-- The endpoint step of `SetLine` registers the endpoint. -/
theorem DirectedGraph.setNode_registers (g : DirectedGraph) (n : State) :
    ((g.setNode n).Node n.ID).isSome = true := by
  apply DirectedGraph.Node_isSome_iff.mpr
  unfold DirectedGraph.setNode
  split
  · exact ⟨n, List.mem_append_right _ (List.mem_singleton_self n), rfl⟩
  · rename_i x hx
    have hxid : x.Id = n.ID := DirectedGraph.Node_id hx
    have hxmem : x ∈ g.nodes := List.mem_of_find?_eq_some hx
    exact ⟨n, List.mem_map.mpr ⟨x, hxmem, by simp [State.ID, hxid]⟩, rfl⟩

/-- The empty store is well formed. -/
theorem NewDirectedGraph_WF : NewDirectedGraph.WF := by
  intro l hl
  exact absurd hl (List.not_mem_nil l)

/-- The method `AddNode` keeps the store well formed. -/
theorem DirectedGraph.AddNode_WF {g g1 : DirectedGraph} {n : State} (hg : g.WF)
    (h : g.AddNode n = some g1) : g1.WF := by
  unfold DirectedGraph.AddNode at h
  split at h
  · exact absurd h (by simp)
  · simp only [Option.some.injEq] at h
    subst h
    intro l hl
    have keep : ∀ k, (g.Node k).isSome = true →
        (DirectedGraph.Node { g with nodes := g.nodes ++ [n] } k).isSome = true := by
      intro k hk
      obtain ⟨m, hm, hmk⟩ := DirectedGraph.Node_isSome_iff.mp hk
      exact DirectedGraph.Node_isSome_iff.mpr ⟨m, List.mem_append_left _ hm, hmk⟩
    exact ⟨keep _ (hg l hl).1, keep _ (hg l hl).2⟩

/-- The method `SetLine` keeps the store well formed. -/
theorem DirectedGraph.SetLine_WF {g : DirectedGraph} (hg : g.WF) (l : Link) :
    (g.SetLine l).WF := by
  intro m hm
  have hnode : ∀ k, ((g.SetLine l).Node k) = (((g.setNode l.From).setNode l.To).Node k) :=
    fun _ => rfl
  have hlines : (g.SetLine l).lines =
      g.lines.filter (fun m => !(m.sameKey l)) ++ [l] := by
    simp only [DirectedGraph.SetLine, DirectedGraph.setNode_lines]
  rw [hlines] at hm
  rw [hnode, hnode]
  rcases List.mem_append.mp hm with h | h
  · have hmem : m ∈ g.lines := (List.mem_filter.mp h).1
    exact ⟨DirectedGraph.setNode_keeps _ (DirectedGraph.setNode_keeps _ (hg m hmem).1),
      DirectedGraph.setNode_keeps _ (DirectedGraph.setNode_keeps _ (hg m hmem).2)⟩
  · rw [List.mem_singleton.mp h]
    exact ⟨DirectedGraph.setNode_keeps _ (DirectedGraph.setNode_registers _ _),
      DirectedGraph.setNode_registers _ _⟩

/-- The machine `New` and every machine obtained from a well-formed one by `Init`,
`NewState` or `LinkStates` has a well-formed store. -/
theorem setup_WF :
    New.g.WF ∧
    (∀ c s v c1 s1 n, s.g.WF → StateMachine.Init c s v = some (c1, s1, n) → s1.g.WF) ∧
    (∀ c s v c1 s1 n, s.g.WF → StateMachine.NewState c s v = some (c1, s1, n) → s1.g.WF) ∧
    (∀ c s a b rule, s.g.WF → (StateMachine.LinkStates c s a b rule).2.g.WF) := by
  refine ⟨NewDirectedGraph_WF, ?_, ?_, ?_⟩
  · intro c s v c1 s1 n hg h
    unfold StateMachine.Init at h
    simp only at h
    split at h
    · exact absurd h (by simp)
    · rename_i g1 hadd
      simp only [Option.some.injEq, Prod.mk.injEq] at h
      rw [← h.2.1]
      exact DirectedGraph.AddNode_WF hg hadd
  · intro c s v c1 s1 n hg h
    unfold StateMachine.NewState at h
    simp only at h
    split at h
    · exact absurd h (by simp)
    · rename_i g1 hadd
      simp only [Option.some.injEq, Prod.mk.injEq] at h
      rw [← h.2.1]
      exact DirectedGraph.AddNode_WF hg hadd
  · intro c s a b rule hg
    exact DirectedGraph.SetLine_WF hg _

/-- A rearrangement of a non-empty list has a first element, taken from that list. -/
theorem head_of_perm {α : Type} {xs ys : List α} (h : xs.Perm ys) {y : α} (hy : y ∈ ys) :
    ∃ x tl, xs = x :: tl ∧ x ∈ ys := by
  cases xs with
  | nil => exact absurd (h.symm.eq_nil ▸ hy) (List.not_mem_nil y)
  | cons x tl => exact ⟨x, tl, rfl, h.subset (List.mem_cons_self x tl)⟩

/-! ## The rule loop -/

theorem evalRules_exhausted {e : Event} {rs : List (Operator × Event)}
    (h : ∀ r ∈ rs, r.1 = "eq" ∧ r.2 ≠ e) : evalRules e rs = RuleStep.exhausted := by
  induction rs with
  | nil => rfl
  | cons r rest ih =>
    obtain ⟨key, val⟩ := r
    have h1 := h (key, val) (List.mem_cons_self _ _)
    rw [evalRules, if_pos h1.1, if_neg h1.2]
    exact ih (fun r hr => h r (List.mem_cons_of_mem _ hr))

theorem evalRules_matched {e : Event} {rs : List (Operator × Event)}
    (hall : ∀ r ∈ rs, r.1 = "eq") (hex : ∃ r ∈ rs, r.2 = e) :
    evalRules e rs = RuleStep.matched := by
  induction rs with
  | nil => obtain ⟨r, hr, _⟩ := hex; exact absurd hr (List.not_mem_nil r)
  | cons r rest ih =>
    obtain ⟨key, val⟩ := r
    have h1 := hall (key, val) (List.mem_cons_self _ _)
    simp only at h1
    by_cases hv : val = e
    · rw [evalRules, if_pos h1, if_pos hv]
    · rw [evalRules, if_pos h1, if_neg hv]
      apply ih (fun r hr => hall r (List.mem_cons_of_mem _ hr))
      obtain ⟨r, hr, hre⟩ := hex
      rcases List.mem_cons.mp hr with hr | hr
      · subst hr; exact absurd hre hv
      · exact ⟨r, hr, hre⟩

theorem evalRules_unsupported {e : Event} {rs : List (Operator × Event)}
    (hno : ∀ r ∈ rs, r.1 = "eq" → r.2 ≠ e) (hex : ∃ r ∈ rs, r.1 ≠ "eq") :
    evalRules e rs = RuleStep.unsupported := by
  induction rs with
  | nil => obtain ⟨r, hr, _⟩ := hex; exact absurd hr (List.not_mem_nil r)
  | cons r rest ih =>
    obtain ⟨key, val⟩ := r
    by_cases hk : key = "eq"
    · have hv := hno (key, val) (List.mem_cons_self _ _) hk
      rw [evalRules, if_pos hk, if_neg hv]
      apply ih (fun r hr => hno r (List.mem_cons_of_mem _ hr))
      obtain ⟨r, hr, hre⟩ := hex
      rcases List.mem_cons.mp hr with hr | hr
      · subst hr; exact absurd hk hre
      · exact ⟨r, hr, hre⟩
    · rw [evalRules, if_neg hk]

/-- Without an `eq` entry for the event, the rule loop never ends in a match. -/
theorem evalRules_ne_matched {e : Event} {rs : List (Operator × Event)}
    (hno : ∀ r ∈ rs, r.1 = "eq" → r.2 ≠ e) : evalRules e rs ≠ RuleStep.matched := by
  induction rs with
  | nil => simp [evalRules]
  | cons r rest ih =>
    obtain ⟨key, val⟩ := r
    by_cases hk : key = "eq"
    · have hv := hno (key, val) (List.mem_cons_self _ _) hk
      rw [evalRules, if_pos hk, if_neg hv]
      exact ih (fun r hr => hno r (List.mem_cons_of_mem _ hr))
    · rw [evalRules, if_neg hk]; exact RuleStep.noConfusion

/-! ## The successor loop -/

/-- One round of the successor loop, once the node and the line taken are known. -/
theorem fireLoop_cons {σ : Sched} {s : StateMachine} {e : Event} {k : Int} {rest : List Int}
    {n : State} {line : Link} {tl : List Link} (hn : s.g.Node k = some n)
    (hl : σ.lines (s.g.linesBetween s.PresentState.Id k) = line :: tl) :
    fireLoop σ s e (k :: rest) =
      match evalRules e (σ.rules line) with
      | RuleStep.matched => some ({ s with PresentState := n }, none)
      | RuleStep.unsupported => some (s, unsupportedOperator)
      | RuleStep.exhausted => fireLoop σ s e rest := by
  have hid : n.Id = k := DirectedGraph.Node_id hn
  have hn2 : s.g.Node n.ID = some n := by simpa [State.ID, hid] using hn
  rw [fireLoop]
  simp only [hn, hn2, hid, hl]

/-- Under a valid schedule on a well-formed store, every successor the iterator yields
has a registered node and a line to examine, and that line leaves the present state
towards that successor. -/
theorem examined_line {σ : Sched} (hσ : σ.Valid) {s : StateMachine} (hg : s.g.WF) {k : Int}
    (hk : k ∈ s.g.fromKeys s.PresentState.Id) :
    ∃ n line tl, s.g.Node k = some n ∧ n.Id = k ∧
      σ.lines (s.g.linesBetween s.PresentState.Id k) = line :: tl ∧
      line ∈ s.g.linesBetween s.PresentState.Id k ∧
      (∀ r, r ∈ σ.rules line ↔ r ∈ line.Rules) := by
  obtain ⟨l, hl, hlk⟩ := DirectedGraph.mem_fromKeys.mp hk
  obtain ⟨n, hn, hnid⟩ := hg.node_of_outgoing hl
  have hmem : l ∈ s.g.linesBetween s.PresentState.Id k :=
    DirectedGraph.mem_linesBetween.mpr ⟨hl, hlk⟩
  obtain ⟨line, tl, hhead, hline⟩ := head_of_perm (hσ.2.1 _) hmem
  refine ⟨n, line, tl, hlk ▸ hn, hnid.trans hlk, hhead, hline, fun r => ?_⟩
  exact (hσ.2.2 line).mem_iff

/-- The successor loop passes over everything when every rule leaving the present state
is an `eq` rule for another event. -/
theorem fireLoop_stays {σ : Sched} (hσ : σ.Valid) {s : StateMachine} (hg : s.g.WF)
    {e : Event}
    (hall : ∀ l ∈ s.g.outgoing s.PresentState.Id, ∀ r ∈ l.Rules, r.1 = "eq" ∧ r.2 ≠ e)
    (ks : List Int) (hks : ∀ k ∈ ks, k ∈ s.g.fromKeys s.PresentState.Id) :
    fireLoop σ s e ks = some (s, none) := by
  induction ks with
  | nil => rfl
  | cons k rest ih =>
    obtain ⟨n, line, tl, hn, _, hhead, hline, hrules⟩ :=
      examined_line hσ hg (hks k (List.mem_cons_self _ _))
    have hout := (DirectedGraph.mem_linesBetween.mp hline).1
    rw [fireLoop_cons hn hhead,
      evalRules_exhausted (fun r hr => hall line hout r ((hrules r).mp hr))]
    exact ih (fun k hk => hks k (List.mem_cons_of_mem _ hk))

/-- The successor loop ends in the error when no `eq` rule leaving the present state
matches the event and some successor in the list is reached only by lines that carry a
rule with another operator. -/
theorem fireLoop_fails {σ : Sched} (hσ : σ.Valid) {s : StateMachine} (hg : s.g.WF)
    {e : Event}
    (hno : ∀ l ∈ s.g.outgoing s.PresentState.Id, ∀ r ∈ l.Rules, r.1 = "eq" → r.2 ≠ e)
    (ks : List Int) (hks : ∀ k ∈ ks, k ∈ s.g.fromKeys s.PresentState.Id)
    (hbad : ∃ k ∈ ks, ∀ l ∈ s.g.linesBetween s.PresentState.Id k, ∃ r ∈ l.Rules, r.1 ≠ "eq") :
    fireLoop σ s e ks = some (s, unsupportedOperator) := by
  induction ks with
  | nil => obtain ⟨k, hk, _⟩ := hbad; exact absurd hk (List.not_mem_nil k)
  | cons k rest ih =>
    obtain ⟨n, line, tl, hn, _, hhead, hline, hrules⟩ :=
      examined_line hσ hg (hks k (List.mem_cons_self _ _))
    have hout := (DirectedGraph.mem_linesBetween.mp hline).1
    have hno1 : ∀ r ∈ σ.rules line, r.1 = "eq" → r.2 ≠ e :=
      fun r hr => hno line hout r ((hrules r).mp hr)
    rw [fireLoop_cons hn hhead]
    by_cases hex : ∃ r ∈ line.Rules, r.1 ≠ "eq"
    · obtain ⟨r, hr, hre⟩ := hex
      rw [evalRules_unsupported hno1 ⟨r, (hrules r).mpr hr, hre⟩]
    · have hall : ∀ r ∈ σ.rules line, r.1 = "eq" ∧ r.2 ≠ e := by
        intro r hr
        have hreq : r.1 = "eq" := by
          by_contra hne
          exact hex ⟨r, (hrules r).mp hr, hne⟩
        exact ⟨hreq, hno1 r hr hreq⟩
      rw [evalRules_exhausted hall]
      apply ih (fun k hk => hks k (List.mem_cons_of_mem _ hk))
      obtain ⟨k1, hk1, hb⟩ := hbad
      rcases List.mem_cons.mp hk1 with h | h
      · subst h; exact absurd (hb line hline) hex
      · exact ⟨k1, h, hb⟩

/-- The successor loop moves to `T` when every rule leaving the present state is an
`eq` rule, every line towards `T` carries the event and no line towards another
successor does. -/
theorem fireLoop_moves {σ : Sched} (hσ : σ.Valid) {s : StateMachine} (hg : s.g.WF)
    {e : Event} {T : State} (hT : s.g.Node T.Id = some T)
    (heq : ∀ l ∈ s.g.outgoing s.PresentState.Id, ∀ r ∈ l.Rules, r.1 = "eq")
    (hto : ∀ l ∈ s.g.outgoing s.PresentState.Id, l.T.Id = T.Id → ∃ r ∈ l.Rules, r.2 = e)
    (hother : ∀ l ∈ s.g.outgoing s.PresentState.Id, l.T.Id ≠ T.Id → ∀ r ∈ l.Rules, r.2 ≠ e)
    (ks : List Int) (hks : ∀ k ∈ ks, k ∈ s.g.fromKeys s.PresentState.Id)
    (hmem : T.Id ∈ ks) :
    fireLoop σ s e ks = some ({ s with PresentState := T }, none) := by
  induction ks with
  | nil => exact absurd hmem (List.not_mem_nil _)
  | cons k rest ih =>
    obtain ⟨n, line, tl, hn, _, hhead, hline, hrules⟩ :=
      examined_line hσ hg (hks k (List.mem_cons_self _ _))
    obtain ⟨hout, hlk⟩ := DirectedGraph.mem_linesBetween.mp hline
    rw [fireLoop_cons hn hhead]
    by_cases hkT : k = T.Id
    · have hnT : n = T := by
        rw [hkT, hT] at hn
        exact (Option.some.inj hn).symm
      obtain ⟨r, hr, hre⟩ := hto line hout (hlk.trans hkT)
      rw [evalRules_matched (fun r hr => heq line hout r ((hrules r).mp hr))
        ⟨r, (hrules r).mpr hr, hre⟩, hnT]
    · have hne : line.T.Id ≠ T.Id := fun h => hkT (hlk.symm.trans h)
      rw [evalRules_exhausted (fun r hr =>
        ⟨heq line hout r ((hrules r).mp hr), hother line hout hne r ((hrules r).mp hr)⟩)]
      apply ih (fun k hk => hks k (List.mem_cons_of_mem _ hk))
      rcases List.mem_cons.mp hmem with h | h
      · exact absurd h.symm hkT
      · exact h

/-- An error leaves the machine as it was; in every case the store is untouched and the
error, if any, is the unsupported-operator error. -/
theorem fireLoop_frame {σ : Sched} {s s1 : StateMachine} {e : Event} {err : error}
    (ks : List Int) (h : fireLoop σ s e ks = some (s1, err)) :
    s1.g = s.g ∧ (err = none ∨ (err = unsupportedOperator ∧ s1 = s)) := by
  induction ks with
  | nil =>
    simp only [fireLoop, Option.some.injEq, Prod.mk.injEq] at h
    exact ⟨by rw [← h.1], Or.inl h.2.symm⟩
  | cons k rest ih =>
    rw [fireLoop] at h
    split at h
    · exact absurd h (by simp)
    · split at h
      · exact absurd h (by simp)
      · split at h
        · exact absurd h (by simp)
        · split at h
          · simp only [Option.some.injEq, Prod.mk.injEq] at h
            exact ⟨by rw [← h.1], Or.inl h.2.symm⟩
          · simp only [Option.some.injEq, Prod.mk.injEq] at h
            exact ⟨by rw [← h.1], Or.inr ⟨h.2.symm, h.1.symm⟩⟩
          · exact ih h

/-! ## `Compute` and the fold of `FireEvent` -/

theorem foldl_foldStep_none (σ : Nat → Sched) (l : List (Nat × Event)) :
    l.foldl (foldStep σ) none = none := by
  induction l with
  | nil => rfl
  | cons x xs ih => simpa [List.foldl, foldStep] using ih

theorem foldl_foldStep_err (σ : Nat → Sched) (m : StateMachine) (msg : String)
    (l : List (Nat × Event)) :
    l.foldl (foldStep σ) (some (m, some msg)) = some (m, some msg) := by
  induction l with
  | nil => rfl
  | cons x xs ih => simpa [List.foldl, foldStep] using ih

/-- The loop of `Compute` computes the fold: same machine, same error. -/
theorem computeLoop_fold (σ : Nat → Sched) (pr : Bool) (es : List String) :
    ∀ (i : Nat) (s : StateMachine) (out : List State),
      (computeLoop σ pr i s out es).map (fun r => (r.machine, r.err)) =
        (es.enumFrom i).foldl (foldStep σ) (some (s, none)) := by
  induction es with
  | nil => intro i s out; rfl
  | cons e es ih =>
    intro i s out
    rw [computeLoop, List.enumFrom_cons, List.foldl_cons]
    have hstep : foldStep σ (some (s, none)) (i, e) = s.FireEvent (σ i) e := rfl
    rw [hstep]
    rcases hfe : s.FireEvent (σ i) e with _ | ⟨s1, _ | msg⟩
    · simp only [foldl_foldStep_none]; rfl
    · simp only []; exact ih (i + 1) s1 _
    · simp only [foldl_foldStep_err]; rfl

/-- The value returned on success is the present state of the machine left behind, and
on failure it is the zero state. -/
theorem computeLoop_ret (σ : Nat → Sched) (pr : Bool) (es : List String) :
    ∀ (i : Nat) (s : StateMachine) (out : List State) (r : ComputeResult),
      computeLoop σ pr i s out es = some r →
        (r.err = none → r.ret = r.machine.PresentState) ∧
        (r.err ≠ none → r.ret = State.zero) := by
  induction es with
  | nil =>
    intro i s out r h
    simp only [computeLoop, Option.some.injEq] at h
    subst h
    exact ⟨fun _ => rfl, fun h => absurd rfl h⟩
  | cons e es ih =>
    intro i s out r h
    rw [computeLoop] at h
    split at h
    · exact absurd h (by simp)
    · simp only [Option.some.injEq] at h
      subst h
      exact ⟨fun h => absurd h (by simp), fun _ => rfl⟩
    · exact ih _ _ _ r h

/-- The flag `printState` changes what is printed and nothing else. -/
theorem computeLoop_print (σ : Nat → Sched) (es : List String) :
    ∀ (i : Nat) (s : StateMachine) (out1 out2 : List State),
      (computeLoop σ true i s out1 es).map (fun r => (r.machine, r.ret, r.err)) =
        (computeLoop σ false i s out2 es).map (fun r => (r.machine, r.ret, r.err)) := by
  induction es with
  | nil => intro i s out1 out2; rfl
  | cons e es ih =>
    intro i s out1 out2
    rw [computeLoop, computeLoop]
    rcases s.FireEvent (σ i) e with _ | ⟨s1, _ | msg⟩
    · rfl
    · simp only []; exact ih (i + 1) s1 _ _
    · rfl

/-- A failing run splits at the failing event: the events before it all succeeded, the
failing call left the machine it found, and nothing after it was fired. -/
theorem computeLoop_error (σ : Nat → Sched) (pr : Bool) (es : List String) :
    ∀ (i : Nat) (s : StateMachine) (out : List State) (r : ComputeResult),
      computeLoop σ pr i s out es = some r → r.err ≠ none →
        ∃ pre e post, es = pre ++ e :: post ∧
          (pre.enumFrom i).foldl (foldStep σ) (some (s, none)) = some (r.machine, none) ∧
          r.machine.FireEvent (σ (i + pre.length)) e = some (r.machine, r.err) := by
  induction es with
  | nil =>
    intro i s out r h hne
    simp only [computeLoop, Option.some.injEq] at h
    subst h
    exact absurd rfl hne
  | cons e es ih =>
    intro i s out r h hne
    rw [computeLoop] at h
    rcases hfe : s.FireEvent (σ i) e with _ | ⟨s1, _ | msg⟩
    · rw [hfe] at h; exact absurd h (by simp)
    · rw [hfe] at h
      obtain ⟨pre, e1, post, hes, hfold, hfire⟩ := ih _ _ _ r h hne
      refine ⟨e :: pre, e1, post, by rw [hes]; rfl, ?_, ?_⟩
      · rw [List.enumFrom_cons, List.foldl_cons]
        have hstep : foldStep σ (some (s, none)) (i, e) = s.FireEvent (σ i) e := rfl
        rw [hstep, hfe]
        exact hfold
      · have hlen : i + (e :: pre).length = i + 1 + pre.length := by
          simp only [List.length_cons]; omega
        rw [hlen]
        exact hfire
    · rw [hfe] at h
      simp only [Option.some.injEq] at h
      subst h
      have hs1 : s1 = s := by
        have := fireLoop_frame _ hfe
        rcases this.2 with h0 | h0
        · exact absurd h0 (by simp)
        · exact h0.2
      subst hs1
      exact ⟨[], e, es, rfl, rfl, by simpa using hfe⟩

/-! ## `FireEvent` under every valid schedule -/

theorem FireEvent_stays {σ : Sched} (hσ : σ.Valid) {s : StateMachine} (hg : s.g.WF)
    {e : Event}
    (hall : ∀ l ∈ s.g.outgoing s.PresentState.Id, ∀ r ∈ l.Rules, r.1 = "eq" ∧ r.2 ≠ e) :
    s.FireEvent σ e = some (s, none) :=
  fireLoop_stays hσ hg hall _ (fun _ hk => (hσ.1 _).mem_iff.mp hk)

theorem FireEvent_fails {σ : Sched} (hσ : σ.Valid) {s : StateMachine} (hg : s.g.WF)
    {e : Event}
    (hno : ∀ l ∈ s.g.outgoing s.PresentState.Id, ∀ r ∈ l.Rules, r.1 = "eq" → r.2 ≠ e)
    (hbad : ∃ k ∈ s.g.fromKeys s.PresentState.Id,
      ∀ l ∈ s.g.linesBetween s.PresentState.Id k, ∃ r ∈ l.Rules, r.1 ≠ "eq") :
    s.FireEvent σ e = some (s, unsupportedOperator) := by
  obtain ⟨k, hk, hb⟩ := hbad
  exact fireLoop_fails hσ hg hno _ (fun _ hk => (hσ.1 _).mem_iff.mp hk)
    ⟨k, (hσ.1 _).mem_iff.mpr hk, hb⟩

theorem FireEvent_moves {σ : Sched} (hσ : σ.Valid) {s : StateMachine} (hg : s.g.WF)
    {e : Event} {T : State} (hT : s.g.Node T.Id = some T)
    (heq : ∀ l ∈ s.g.outgoing s.PresentState.Id, ∀ r ∈ l.Rules, r.1 = "eq")
    (hto : ∀ l ∈ s.g.outgoing s.PresentState.Id, l.T.Id = T.Id → ∃ r ∈ l.Rules, r.2 = e)
    (hother : ∀ l ∈ s.g.outgoing s.PresentState.Id, l.T.Id ≠ T.Id → ∀ r ∈ l.Rules, r.2 ≠ e)
    (hmem : T.Id ∈ s.g.fromKeys s.PresentState.Id) :
    s.FireEvent σ e = some ({ s with PresentState := T }, none) :=
  fireLoop_moves hσ hg hT heq hto hother _ (fun _ hk => (hσ.1 _).mem_iff.mp hk)
    ((hσ.1 _).mem_iff.mpr hmem)

/-! ## C1: an `eq` transition is taken -/

/-- C1, counterexample.  In the machine with the transitions a-gt(5)->b and a-eq(go)->c,
built through `Init`, `NewState` and `LinkStates`, the current state is `a` and the
transition from `a` to `c` has the rule eq(go); examined in stored order, `FireEvent`
on `go` returns the unsupported-operator error and the current state stays `a`. -/
theorem FireEvent_eq_transition_blocked :
    ∃ c m, guardedBehind =
        some (c, m, ⟨0, Any.string "a"⟩, ⟨1, Any.string "b"⟩, ⟨2, Any.string "c"⟩) ∧
      m.PresentState = ⟨0, Any.string "a"⟩ ∧
      ({ Id := 2, T := ⟨2, Any.string "c"⟩, F := ⟨0, Any.string "a"⟩,
          Rules := NewRule "eq" "go" } : Link) ∈ m.g.lines ∧
      m.FireEvent Sched.stored "go" = some (m, unsupportedOperator) := by
  refine ⟨_, _, rfl, ?_, ?_, ?_⟩
  · decide
  · decide
  · decide

/-- C1, amended.  On a machine whose lines have registered endpoints, let `t` be a
transition leaving the current state whose target `t.T` is the state registered under
its id.  If every rule of every transition leaving the current state has the operator
`eq`, every transition from the current state to `t.T` (so `t` itself) carries the
comparison value `V`, and no transition from the current state to another state carries
`V`, then under every examination order `FireEvent` on `V` returns success and the
current state afterwards is `t.T`. -/
theorem FireEvent_eq_transition (σ : Sched) (hσ : σ.Valid) (s : StateMachine) (hg : s.g.WF)
    (t : Link) (V : Event) (ht : t ∈ s.g.outgoing s.PresentState.Id)
    (hT : s.g.Node t.T.Id = some t.T)
    (heq : ∀ l ∈ s.g.outgoing s.PresentState.Id, ∀ r ∈ l.Rules, r.1 = "eq")
    (hto : ∀ l ∈ s.g.outgoing s.PresentState.Id, l.T.Id = t.T.Id → ∃ r ∈ l.Rules, r.2 = V)
    (hother : ∀ l ∈ s.g.outgoing s.PresentState.Id, l.T.Id ≠ t.T.Id →
      ∀ r ∈ l.Rules, r.2 ≠ V) :
    s.FireEvent σ V = some ({ s with PresentState := t.T }, none) :=
  FireEvent_moves hσ hg hT heq hto hother (DirectedGraph.mem_fromKeys.mpr ⟨t, ht, rfl⟩)

/-- C1, witness: in the turnstile, from `locked`, the event `coin` leads to `unlocked`. -/
theorem FireEvent_eq_transition_witness :
    ∃ c m, turnstile =
        some (c, m, ⟨0, Any.string "locked"⟩, ⟨1, Any.string "unlocked"⟩) ∧
      m.FireEvent Sched.stored "coin" =
        some ({ m with PresentState := ⟨1, Any.string "unlocked"⟩ }, none) := by
  refine ⟨_, _, rfl, ?_⟩
  exact FireEvent_eq_transition Sched.stored Sched.stored_valid _ (by decide)
    { Id := 1, T := ⟨1, Any.string "unlocked"⟩, F := ⟨0, Any.string "locked"⟩,
      Rules := NewRule "eq" "coin" } "coin"
    (by decide) (by decide) (by decide) (by decide) (by decide)

/-! ## C2: an unmatched event is a no-op -/

/-- C2, counterexample.  In the machine with the transitions a-gt(5)->b and a-eq(go)->c
the current state is `a` and no rule of a transition leaving `a` has the comparison
value `stop`; yet `FireEvent` on `stop` returns the unsupported-operator error, in
stored order and in reverse order alike. -/
theorem FireEvent_unmatched_blocked :
    ∃ c m, guardedBehind =
        some (c, m, ⟨0, Any.string "a"⟩, ⟨1, Any.string "b"⟩, ⟨2, Any.string "c"⟩) ∧
      (∀ l ∈ m.g.outgoing m.PresentState.Id, ∀ r ∈ l.Rules, r.2 ≠ "stop") ∧
      m.FireEvent Sched.stored "stop" = some (m, unsupportedOperator) ∧
      m.FireEvent Sched.reversed "stop" = some (m, unsupportedOperator) := by
  refine ⟨_, _, rfl, ?_, ?_, ?_⟩
  · decide
  · decide
  · decide

/-- C2, amended.  On a machine whose lines have registered endpoints, if every rule of
every transition leaving the current state has the operator `eq` and a comparison value
other than `E`, then under every examination order `FireEvent` on `E` returns success
(nil error) and leaves the machine, hence the current state, as it was. -/
theorem FireEvent_unmatched (σ : Sched) (hσ : σ.Valid) (s : StateMachine) (hg : s.g.WF)
    (E : Event)
    (hall : ∀ l ∈ s.g.outgoing s.PresentState.Id, ∀ r ∈ l.Rules, r.1 = "eq" ∧ r.2 ≠ E) :
    s.FireEvent σ E = some (s, none) :=
  FireEvent_stays hσ hg hall

/-- C2, witness: in the turnstile, from `locked`, the event `jump` changes nothing. -/
theorem FireEvent_unmatched_witness :
    ∃ c m, turnstile =
        some (c, m, ⟨0, Any.string "locked"⟩, ⟨1, Any.string "unlocked"⟩) ∧
      m.PresentState = ⟨0, Any.string "locked"⟩ ∧
      m.FireEvent Sched.stored "jump" = some (m, none) := by
  refine ⟨_, _, rfl, rfl, ?_⟩
  exact FireEvent_unmatched Sched.stored Sched.stored_valid _ (by decide) "jump" (by decide)

/-! ## C3: an unsupported operator is a hard stop -/

/-- C3, counterexample.  In the machine whose only transition, from `a` to `b`, has the
rule map with the entries eq -> go and lt -> 5, that transition is the first one
`FireEvent` evaluates from `a` and it carries a rule whose operator is not `eq`; yet with
the entries examined in stored order `FireEvent` on `go` returns success and moves the
current state to `b`. -/
theorem FireEvent_hard_stop_second_entry :
    ∃ c m, twoEntryRule = some (c, m, ⟨0, Any.string "a"⟩, ⟨1, Any.string "b"⟩) ∧
      m.PresentState = ⟨0, Any.string "a"⟩ ∧
      (∃ line, m.firstEvaluated Sched.stored = some line ∧ ("lt", "5") ∈ line.Rules) ∧
      m.FireEvent Sched.stored "go" =
        some ({ m with PresentState := ⟨1, Any.string "b"⟩ }, none) := by
  refine ⟨_, _, rfl, rfl, ⟨_, rfl, ?_⟩, ?_⟩
  · decide
  · decide

/-- C3, amended.  Under every examination order and for every event `e`: if the
transition that `FireEvent` evaluates first carries a rule whose operator is not `eq`
and carries no `eq` rule whose comparison value is `e`, then `FireEvent` on `e` fails
with the unsupported-operator error and leaves the machine as it was.  Nothing is
assumed about the comparison value of the offending rule or about the transitions
evaluated later. -/
theorem FireEvent_hard_stop (σ : Sched) (hσ : σ.Valid) (s : StateMachine) (e : Event)
    (line : Link) (hfirst : s.firstEvaluated σ = some line)
    (hbad : ∃ r ∈ line.Rules, r.1 ≠ "eq")
    (hno : ∀ r ∈ line.Rules, r.1 = "eq" → r.2 ≠ e) :
    s.FireEvent σ e = some (s, unsupportedOperator) := by
  have hrules : ∀ r, r ∈ σ.rules line ↔ r ∈ line.Rules := fun r => (hσ.2.2 line).mem_iff
  have hev : evalRules e (σ.rules line) = RuleStep.unsupported := by
    obtain ⟨r, hr, hre⟩ := hbad
    exact evalRules_unsupported (fun r hr => hno r ((hrules r).mp hr))
      ⟨r, (hrules r).mpr hr, hre⟩
  unfold StateMachine.firstEvaluated at hfirst
  unfold StateMachine.FireEvent
  split at hfirst
  · exact absurd hfirst (by simp)
  · rename_i k rest hnodes
    rw [hnodes, fireLoop]
    split at hfirst
    · exact absurd hfirst (by simp)
    · rename_i itNode _
      split at hfirst
      · exact absurd hfirst (by simp)
      · rename_i n _
        cases hls : σ.lines (s.g.linesBetween s.PresentState.Id n.Id) with
        | nil => rw [hls] at hfirst; exact absurd hfirst (by simp)
        | cons l tl =>
          rw [hls] at hfirst
          simp only [List.head?_cons, Option.some.injEq] at hfirst
          subst hfirst
          simp only [hev]

/-- C3, witness: in the machine with the transitions a-gt(5)->b and a-eq(go)->c, examined
in stored order, the transition to `b` is evaluated first, and `FireEvent` fails on `5`
(the comparison value of its rule) and on `go` (which the later transition matches). -/
theorem FireEvent_hard_stop_witness :
    ∃ c m, guardedBehind =
        some (c, m, ⟨0, Any.string "a"⟩, ⟨1, Any.string "b"⟩, ⟨2, Any.string "c"⟩) ∧
      m.firstEvaluated Sched.stored =
        some { Id := 1, T := ⟨1, Any.string "b"⟩, F := ⟨0, Any.string "a"⟩,
               Rules := NewRule "gt" "5" } ∧
      m.FireEvent Sched.stored "5" = some (m, unsupportedOperator) ∧
      m.FireEvent Sched.stored "go" = some (m, unsupportedOperator) := by
  refine ⟨_, _, rfl, rfl, ?_, ?_⟩
  · exact FireEvent_hard_stop Sched.stored Sched.stored_valid _ "5" _ rfl (by decide)
      (by decide)
  · exact FireEvent_hard_stop Sched.stored Sched.stored_valid _ "go" _ rfl (by decide)
      (by decide)

/-! ## C4: a failing `FireEvent` changes nothing -/

/-- C4.  If `FireEvent` on `e` returns an error, the machine after the call is the
machine before it: the same current state (id and value), the same registered states
and the same transitions. -/
theorem FireEvent_error_unchanged (σ : Sched) (s s1 : StateMachine) (e : Event)
    (msg : String) (h : s.FireEvent σ e = some (s1, some msg)) : s1 = s := by
  rcases (fireLoop_frame _ h).2 with h0 | h0
  · exact absurd h0 (by simp)
  · exact h0.2

/-- C4, witness: the failing call on `go` in the machine with the transitions
a-gt(5)->b and a-eq(go)->c. -/
theorem FireEvent_error_unchanged_witness :
    ∃ c m s1, guardedBehind =
        some (c, m, ⟨0, Any.string "a"⟩, ⟨1, Any.string "b"⟩, ⟨2, Any.string "c"⟩) ∧
      m.FireEvent Sched.stored "go" = some (s1, some "UNSUPPORTED_COMPARISON_OPERATOR") ∧
      s1 = m := by
  refine ⟨_, _, _, rfl, rfl, ?_⟩
  exact FireEvent_error_unchanged Sched.stored _ _ "go" "UNSUPPORTED_COMPARISON_OPERATOR" rfl

/-! ## C5: `Compute` is the fold of `FireEvent` -/

theorem foldFireEvent_fail {σ : Nat → Sched} {s m m1 : StateMachine} {pre : List Event}
    (post : List Event) {e : Event} {msg : String} (hpre : foldFireEvent σ s pre = some (m, none))
    (hfire : m.FireEvent (σ pre.length) e = some (m1, some msg)) :
    foldFireEvent σ s (pre ++ e :: post) = some (m, some msg) := by
  have hm : m1 = m := by
    rcases (fireLoop_frame _ hfire).2 with h0 | h0
    · exact absurd h0 (by simp)
    · exact h0.2
  unfold foldFireEvent at hpre ⊢
  rw [List.enum, List.enumFrom_append, List.foldl_append, List.enumFrom_cons, List.foldl_cons]
  rw [List.enum] at hpre
  rw [hpre]
  have hstep : foldStep σ (some (m, none)) (0 + pre.length, e) =
      m.FireEvent (σ (0 + pre.length)) e := rfl
  rw [hstep, Nat.zero_add, hfire, hm]
  exact foldl_foldStep_err σ m msg _

/-- C5.  `Compute` is the left fold of `FireEvent` over the events: the machine it leaves
and the error it returns are those of the fold.  When every `FireEvent` succeeds it
returns success with the current state of the machine reached (for the empty sequence,
the unchanged machine).  When the events `pre` succeed and the next event `e` fails,
it returns that error and leaves the machine reached by `pre`, whatever events `post`
follow.  Machine, returned state and error are the same for both values of
`printState`. -/
theorem Compute_is_fold (σ : Nat → Sched) (s : StateMachine) (es : List String)
    (printState : Bool) :
    (s.Compute σ es printState).map (fun r => (r.machine, r.err)) = foldFireEvent σ s es ∧
    s.Compute σ [] printState = some ⟨s, s.PresentState, none, []⟩ ∧
    (∀ m, foldFireEvent σ s es = some (m, none) →
      ∃ out, s.Compute σ es printState = some ⟨m, m.PresentState, none, out⟩) ∧
    (∀ pre e post m m1 msg, es = pre ++ e :: post →
      foldFireEvent σ s pre = some (m, none) →
      m.FireEvent (σ pre.length) e = some (m1, some msg) →
      ∃ ret out, s.Compute σ es printState = some ⟨m, ret, some msg, out⟩) ∧
    (s.Compute σ es true).map (fun r => (r.machine, r.ret, r.err)) =
      (s.Compute σ es false).map (fun r => (r.machine, r.ret, r.err)) := by
  have hfold : (s.Compute σ es printState).map (fun r => (r.machine, r.err)) =
      foldFireEvent σ s es := computeLoop_fold σ printState es 0 s []
  refine ⟨hfold, rfl, ?_, ?_, computeLoop_print σ es 0 s [] []⟩
  · intro m hm
    rw [hm] at hfold
    cases hc : s.Compute σ es printState with
    | none => rw [hc] at hfold; exact absurd hfold (by simp)
    | some r =>
      rw [hc] at hfold
      simp only [Option.map_some', Option.some.injEq, Prod.mk.injEq] at hfold
      have hret := (computeLoop_ret σ printState es 0 s [] r hc).1 hfold.2
      obtain ⟨machine, ret, err, printed⟩ := r
      simp only at hfold hret
      obtain ⟨h1, h2⟩ := hfold
      subst h1 h2 hret
      exact ⟨printed, rfl⟩
  · intro pre e post m m1 msg hes hpre hfire
    have hf := foldFireEvent_fail post hpre hfire
    rw [← hes] at hf
    rw [hf] at hfold
    cases hc : s.Compute σ es printState with
    | none => rw [hc] at hfold; exact absurd hfold (by simp)
    | some r =>
      rw [hc] at hfold
      simp only [Option.map_some', Option.some.injEq, Prod.mk.injEq] at hfold
      obtain ⟨machine, ret, err, printed⟩ := r
      simp only at hfold
      obtain ⟨h1, h2⟩ := hfold
      subst h1 h2
      exact ⟨ret, printed, rfl⟩

/-! ## C6: the turnstile scenario -/

/-- C6.  In the turnstile built through `Init`, `NewState` and four `LinkStates` calls,
under every examination order: from `locked` the event `coin` leads to `unlocked`, from
`unlocked` the event `push` leads to `locked`, and `Compute` on `["coin", "push"]`
returns success with the final state `locked`, having printed `unlocked` and then
`locked`. -/
theorem turnstile_coin_push (σ : Nat → Sched) (hσ : ∀ i, (σ i).Valid) :
    ∃ c m, turnstile =
        some (c, m, ⟨0, Any.string "locked"⟩, ⟨1, Any.string "unlocked"⟩) ∧
      m.PresentState = ⟨0, Any.string "locked"⟩ ∧
      m.FireEvent (σ 0) "coin" =
        some ({ m with PresentState := ⟨1, Any.string "unlocked"⟩ }, none) ∧
      StateMachine.FireEvent (σ 1) { m with PresentState := ⟨1, Any.string "unlocked"⟩ }
        "push" = some (m, none) ∧
      m.Compute σ ["coin", "push"] true =
        some ⟨m, ⟨0, Any.string "locked"⟩, none,
          [⟨1, Any.string "unlocked"⟩, ⟨0, Any.string "locked"⟩]⟩ := by
  refine ⟨_, _, rfl, rfl, ?_, ?_, ?_⟩
  · exact FireEvent_moves (hσ 0) (by decide) (by decide) (by decide) (by decide)
      (by decide) (by decide)
  · exact FireEvent_moves (T := ⟨0, Any.string "locked"⟩) (hσ 1) (by decide) (by decide)
      (by decide) (by decide) (by decide) (by decide)
  · rw [StateMachine.Compute, computeLoop,
      FireEvent_moves (T := ⟨1, Any.string "unlocked"⟩) (hσ 0) (by decide) (by decide)
        (by decide) (by decide) (by decide) (by decide)]
    simp only []
    rw [computeLoop,
      FireEvent_moves (T := ⟨0, Any.string "locked"⟩) (hσ 1) (by decide) (by decide)
        (by decide) (by decide) (by decide) (by decide)]
    rfl

/-- C6, witness: the turnstile run with everything examined in stored order. -/
theorem turnstile_coin_push_witness :
    ∃ c m, turnstile =
        some (c, m, ⟨0, Any.string "locked"⟩, ⟨1, Any.string "unlocked"⟩) ∧
      m.Compute (fun _ => Sched.stored) ["coin", "push"] true =
        some ⟨m, ⟨0, Any.string "locked"⟩, none,
          [⟨1, Any.string "unlocked"⟩, ⟨0, Any.string "locked"⟩]⟩ := by
  obtain ⟨c, m, h1, _, _, _, h5⟩ :=
    turnstile_coin_push (fun _ => Sched.stored) (fun _ => Sched.stored_valid)
  exact ⟨c, m, h1, h5⟩

/-! ## C7: the demonstration machine of `main` -/

/-- C7, the code at its own input.  The machine that `main` wires has the coin rule
`NewRule("eqs", "coin")`.  Under every examination order `FireEvent` on `coin` from
`locked` fails with the unsupported-operator error, so `main`'s call of `Compute` on
`["coin", "push"]` returns the zero state and that error after the first event, prints
no state, and leaves the current state `locked`. -/
theorem main_coin_fails (σ : Nat → Sched) (hσ : ∀ i, (σ i).Valid) :
    ∃ c m, mainSetup =
        some (c, m, ⟨0, Any.string "locked"⟩, ⟨1, Any.string "unlocked"⟩) ∧
      m.PresentState = ⟨0, Any.string "locked"⟩ ∧
      ({ Id := 1, T := ⟨1, Any.string "unlocked"⟩, F := ⟨0, Any.string "locked"⟩,
          Rules := [("eqs", "coin")] } : Link) ∈ m.g.lines ∧
      m.FireEvent (σ 0) "coin" = some (m, unsupportedOperator) ∧
      main σ = some ⟨m, State.zero, unsupportedOperator, []⟩ := by
  refine ⟨_, _, rfl, rfl, by decide, ?_, ?_⟩
  · exact FireEvent_fails (hσ 0) (by decide) (by decide) (by decide)
  · change StateMachine.Compute σ _ ["coin", "push"] true = _
    rw [StateMachine.Compute, computeLoop,
      FireEvent_fails (hσ 0) (by decide) (by decide) (by decide)]
    rfl

/-- C7, witness: `main` with everything examined in stored order. -/
theorem main_coin_fails_witness :
    main (fun _ => Sched.stored) =
      some ⟨⟨⟨0, Any.string "locked"⟩,
          ⟨[⟨0, Any.string "locked"⟩, ⟨1, Any.string "unlocked"⟩],
            [{ Id := 1, T := ⟨1, Any.string "unlocked"⟩, F := ⟨0, Any.string "locked"⟩,
               Rules := [("eqs", "coin")] },
             { Id := 2, T := ⟨0, Any.string "locked"⟩, F := ⟨1, Any.string "unlocked"⟩,
               Rules := [("eq", "push")] },
             { Id := 3, T := ⟨0, Any.string "locked"⟩, F := ⟨0, Any.string "locked"⟩,
               Rules := [("eq", "push")] },
             { Id := 4, T := ⟨1, Any.string "unlocked"⟩, F := ⟨1, Any.string "unlocked"⟩,
               Rules := [("eqs", "coin")] }]⟩⟩,
        State.zero, some "UNSUPPORTED_COMPARISON_OPERATOR", []⟩ := by
  obtain ⟨c, m, h1, _, _, _, h5⟩ :=
    main_coin_fails (fun _ => Sched.stored) (fun _ => Sched.stored_valid)
  rw [h5]
  have hm := Option.some.inj (h1.symm.trans (by rfl : mainSetup = some (_, _, _, _)))
  simp only [Prod.mk.injEq] at hm
  rw [hm.2.1]
  rfl

/-! ## C8: parallel transitions -/

/-- C8, the code at the failing input.  In the machine with two parallel transitions from
`a` to `b`, the first with rule eq(x) and the second with rule eq(y), the current state
is `a`.  When `Lines` yields the eq(x) line first, `FireEvent` on `y` returns success and
leaves the current state `a`; when it yields the eq(y) line first, `FireEvent` on `x`
does.  Only element 0 of the parallel lines is ever evaluated. -/
theorem parallel_line_not_evaluated :
    ∃ c m, parallelLinks = some (c, m, ⟨0, Any.string "a"⟩, ⟨1, Any.string "b"⟩) ∧
      m.PresentState = ⟨0, Any.string "a"⟩ ∧
      m.g.linesBetween 0 1 =
        [{ Id := 1, T := ⟨1, Any.string "b"⟩, F := ⟨0, Any.string "a"⟩,
           Rules := NewRule "eq" "x" },
         { Id := 2, T := ⟨1, Any.string "b"⟩, F := ⟨0, Any.string "a"⟩,
           Rules := NewRule "eq" "y" }] ∧
      m.FireEvent Sched.stored "x" =
        some ({ m with PresentState := ⟨1, Any.string "b"⟩ }, none) ∧
      m.FireEvent Sched.stored "y" = some (m, none) ∧
      m.FireEvent Sched.reversed "x" = some (m, none) ∧
      m.FireEvent Sched.reversed "y" =
        some ({ m with PresentState := ⟨1, Any.string "b"⟩ }, none) := by
  refine ⟨_, _, rfl, rfl, ?_, ?_, ?_, ?_, ?_⟩ <;> decide

/-! ## C9: self-loops -/

/-- C9, counterexample.  In the machine with the transition a-eq(tick)->b and the
self-loop a-eq(tick)->a, the current state `a` has a self-loop with rule eq(tick); yet,
examined in stored order, `FireEvent` on `tick` moves the current state to `b`. -/
theorem FireEvent_self_loop_overtaken :
    ∃ c m, loopBehind = some (c, m, ⟨0, Any.string "a"⟩, ⟨1, Any.string "b"⟩) ∧
      m.PresentState = ⟨0, Any.string "a"⟩ ∧
      ({ Id := 2, T := ⟨0, Any.string "a"⟩, F := ⟨0, Any.string "a"⟩,
          Rules := NewRule "eq" "tick" } : Link) ∈ m.g.lines ∧
      m.FireEvent Sched.stored "tick" =
        some ({ m with PresentState := ⟨1, Any.string "b"⟩ }, none) := by
  refine ⟨_, _, rfl, rfl, ?_, ?_⟩ <;> decide

/-- C9, amended.  On a machine whose lines have registered endpoints and whose current
state `S` is the state registered under its id, suppose `S` has a self-loop.  If every
rule of every transition leaving `S` has the operator `eq`, every self-loop of `S`
carries the comparison value `V`, and no transition from `S` to another state carries
`V`, then under every examination order `FireEvent` on `V` returns success with no error
and leaves the machine as it was: the current state is `S` with the same id and value. -/
theorem FireEvent_self_loop (σ : Sched) (hσ : σ.Valid) (s : StateMachine) (hg : s.g.WF)
    (V : Event) (hS : s.g.Node s.PresentState.Id = some s.PresentState)
    (hloop : ∃ t ∈ s.g.outgoing s.PresentState.Id, t.T.Id = s.PresentState.Id)
    (heq : ∀ l ∈ s.g.outgoing s.PresentState.Id, ∀ r ∈ l.Rules, r.1 = "eq")
    (hto : ∀ l ∈ s.g.outgoing s.PresentState.Id, l.T.Id = s.PresentState.Id →
      ∃ r ∈ l.Rules, r.2 = V)
    (hother : ∀ l ∈ s.g.outgoing s.PresentState.Id, l.T.Id ≠ s.PresentState.Id →
      ∀ r ∈ l.Rules, r.2 ≠ V) :
    s.FireEvent σ V = some (s, none) :=
  FireEvent_moves hσ hg hS heq hto hother (DirectedGraph.mem_fromKeys.mpr hloop)

/-- C9, witness: in the turnstile, from `locked`, the event `push` takes the self-loop. -/
theorem FireEvent_self_loop_witness :
    ∃ c m, turnstile =
        some (c, m, ⟨0, Any.string "locked"⟩, ⟨1, Any.string "unlocked"⟩) ∧
      m.PresentState = ⟨0, Any.string "locked"⟩ ∧
      m.FireEvent Sched.reversed "push" = some (m, none) := by
  refine ⟨_, _, rfl, rfl, ?_⟩
  exact FireEvent_self_loop Sched.reversed Sched.reversed_valid _ (by decide) "push"
    (by decide) (by decide) (by decide) (by decide) (by decide)

/-! ## C10: the current state after a failing `Compute` -/

/-- C10, counterexample.  In the machine with the transitions a-eq(x)->b and b-lt(y)->a
the current state is `a`; `Compute` on `["x", "z"]` returns the unsupported-operator
error, and the current state after the call is `b`. -/
theorem Compute_error_after_move :
    ∃ c m, moveThenFail = some (c, m, ⟨0, Any.string "a"⟩, ⟨1, Any.string "b"⟩) ∧
      m.PresentState = ⟨0, Any.string "a"⟩ ∧
      m.Compute (fun _ => Sched.stored) ["x", "z"] false =
        some ⟨{ m with PresentState := ⟨1, Any.string "b"⟩ }, State.zero,
          unsupportedOperator, []⟩ := by
  refine ⟨_, _, rfl, rfl, ?_⟩
  decide

/-- C10, amended.  When `Compute` returns an error, the event sequence splits into the
events `pre` that succeeded, the failing event `e` and the events `post` never fired;
the machine after the call is the one reached by folding `FireEvent` over `pre`, and the
failing `FireEvent` call left that machine as it found it.  When the failing event is
the first one, the machine after the call is the machine before it. -/
theorem Compute_error_state (σ : Nat → Sched) (s : StateMachine) (es : List String)
    (printState : Bool) (r : ComputeResult) (h : s.Compute σ es printState = some r)
    (herr : r.err ≠ none) :
    ∃ pre e post, es = pre ++ e :: post ∧
      foldFireEvent σ s pre = some (r.machine, none) ∧
      r.machine.FireEvent (σ pre.length) e = some (r.machine, r.err) ∧
      (pre = [] → r.machine = s) := by
  obtain ⟨pre, e, post, hes, hfold, hfire⟩ := computeLoop_error σ printState es 0 s [] r h herr
  refine ⟨pre, e, post, hes, hfold, by simpa using hfire, ?_⟩
  intro hpre
  subst hpre
  have h0 : some (s, (none : error)) = some (r.machine, none) := hfold
  simp only [Option.some.injEq, Prod.mk.injEq, and_true] at h0
  exact h0.symm

/-- C10, witness: the failing run on `["x", "z"]` in the machine with the transitions
a-eq(x)->b and b-lt(y)->a leaves the machine reached by the events before the failing
one. -/
theorem Compute_error_state_witness :
    ∃ c m, moveThenFail = some (c, m, ⟨0, Any.string "a"⟩, ⟨1, Any.string "b"⟩) ∧
      ∃ pre e post, ["x", "z"] = pre ++ e :: post ∧
        foldFireEvent (fun _ => Sched.stored) m pre =
          some ({ m with PresentState := ⟨1, Any.string "b"⟩ }, none) ∧
        StateMachine.FireEvent Sched.stored { m with PresentState := ⟨1, Any.string "b"⟩ } e =
          some ({ m with PresentState := ⟨1, Any.string "b"⟩ }, unsupportedOperator) ∧
        (pre = [] → { m with PresentState := ⟨1, Any.string "b"⟩ } = m) := by
  refine ⟨_, _, rfl, ?_⟩
  exact Compute_error_state (fun _ => Sched.stored) _ ["x", "z"] false
    ⟨_, State.zero, unsupportedOperator, []⟩ (by rfl) (by decide)

/-! ## Further facts about the loops -/

/-- A rule loop over `eq` rules alone never ends in the error. -/
theorem evalRules_eq_only {e : Event} {rs : List (Operator × Event)}
    (hall : ∀ r ∈ rs, r.1 = "eq") : evalRules e rs ≠ RuleStep.unsupported := by
  induction rs with
  | nil => simp [evalRules]
  | cons r rest ih =>
    obtain ⟨key, val⟩ := r
    have hk : key = "eq" := hall (key, val) (List.mem_cons_self _ _)
    rw [evalRules, if_pos hk]
    by_cases hv : val = e
    · rw [if_pos hv]; exact RuleStep.noConfusion
    · rw [if_neg hv]; exact ih (fun r hr => hall r (List.mem_cons_of_mem _ hr))

/-- A rule loop that ends in a match has ranged over the entry `eq -> e`. -/
theorem evalRules_matched_mem {e : Event} {rs : List (Operator × Event)}
    (h : evalRules e rs = RuleStep.matched) : ("eq", e) ∈ rs := by
  induction rs with
  | nil => simp [evalRules] at h
  | cons r rest ih =>
    obtain ⟨key, val⟩ := r
    rw [evalRules] at h
    by_cases hk : key = "eq"
    · rw [if_pos hk] at h
      by_cases hv : val = e
      · rw [hk, hv]; exact List.mem_cons_self _ _
      · rw [if_neg hv] at h; exact List.mem_cons_of_mem _ (ih h)
    · rw [if_neg hk] at h; exact absurd h (by simp)

/-- On a well-formed store under a valid schedule the successor loop always returns,
with success or with the unsupported-operator error. -/
theorem fireLoop_total {σ : Sched} (hσ : σ.Valid) {s : StateMachine} (hg : s.g.WF)
    (e : Event) (ks : List Int) (hks : ∀ k ∈ ks, k ∈ s.g.fromKeys s.PresentState.Id) :
    (∃ s1, fireLoop σ s e ks = some (s1, none)) ∨
      fireLoop σ s e ks = some (s, unsupportedOperator) := by
  induction ks with
  | nil => exact Or.inl ⟨s, rfl⟩
  | cons k rest ih =>
    obtain ⟨n, line, tl, hn, _, hhead, _, _⟩ :=
      examined_line hσ hg (hks k (List.mem_cons_self _ _))
    rw [fireLoop_cons hn hhead]
    cases evalRules e (σ.rules line) with
    | matched => exact Or.inl ⟨_, rfl⟩
    | unsupported => exact Or.inr rfl
    | exhausted => exact ih (fun k hk => hks k (List.mem_cons_of_mem _ hk))

/-- When every rule leaving the present state is an `eq` rule the successor loop returns
success. -/
theorem fireLoop_eq_only {σ : Sched} (hσ : σ.Valid) {s : StateMachine} (hg : s.g.WF)
    (e : Event)
    (hall : ∀ l ∈ s.g.outgoing s.PresentState.Id, ∀ r ∈ l.Rules, r.1 = "eq")
    (ks : List Int) (hks : ∀ k ∈ ks, k ∈ s.g.fromKeys s.PresentState.Id) :
    ∃ s1, fireLoop σ s e ks = some (s1, none) := by
  induction ks with
  | nil => exact ⟨s, rfl⟩
  | cons k rest ih =>
    obtain ⟨n, line, tl, hn, _, hhead, hline, hrules⟩ :=
      examined_line hσ hg (hks k (List.mem_cons_self _ _))
    have hout := (DirectedGraph.mem_linesBetween.mp hline).1
    have hne := evalRules_eq_only (e := e)
      (fun r hr => hall line hout r ((hrules r).mp hr))
    rw [fireLoop_cons hn hhead]
    cases hev : evalRules e (σ.rules line) with
    | matched => exact ⟨_, rfl⟩
    | unsupported => exact absurd hev hne
    | exhausted => exact ih (fun k hk => hks k (List.mem_cons_of_mem _ hk))

/-- A successful successor loop either leaves the machine as it was or has moved the
present state to the node registered at the far end of a stored line that leaves the
present state and carries the entry `eq -> e`. -/
theorem fireLoop_moved {σ : Sched} (hσ : σ.Valid) {s s1 : StateMachine} {e : Event}
    (ks : List Int) (h : fireLoop σ s e ks = some (s1, none)) :
    s1 = s ∨ ∃ l ∈ s.g.outgoing s.PresentState.Id, ("eq", e) ∈ l.Rules ∧
      s.g.Node l.T.Id = some s1.PresentState ∧ s1.PresentState.Id = l.T.Id := by
  induction ks with
  | nil =>
    simp only [fireLoop, Option.some.injEq, Prod.mk.injEq, and_true] at h
    exact Or.inl h.symm
  | cons k rest ih =>
    rw [fireLoop] at h
    split at h
    · exact absurd h (by simp)
    · rename_i itNode _
      split at h
      · exact absurd h (by simp)
      · rename_i n hn
        split at h
        · exact absurd h (by simp)
        · rename_i line tl hls
          have hline : line ∈ s.g.linesBetween s.PresentState.Id n.Id :=
            (hσ.2.1 _).subset (hls ▸ List.mem_cons_self line tl)
          obtain ⟨hout, hto⟩ := DirectedGraph.mem_linesBetween.mp hline
          split at h
          · rename_i hev
            simp only [Option.some.injEq, Prod.mk.injEq, and_true] at h
            subst h
            refine Or.inr ⟨line, hout, ?_, ?_, hto.symm⟩
            · exact (hσ.2.2 line).mem_iff.mp (evalRules_matched_mem hev)
            · have hid : n.Id = itNode.ID := DirectedGraph.Node_id hn
              show s.g.Node line.T.Id = some n
              rw [hto, hid]; exact hn
          · exact absurd h (by simp [unsupportedOperator])
          · exact ih h

/-- The loop of `Compute` never touches the store. -/
theorem computeLoop_frame (σ : Nat → Sched) (pr : Bool) (es : List String) :
    ∀ (i : Nat) (s : StateMachine) (out : List State) (r : ComputeResult),
      computeLoop σ pr i s out es = some r → r.machine.g = s.g := by
  induction es with
  | nil =>
    intro i s out r h
    simp only [computeLoop, Option.some.injEq] at h
    subst h; rfl
  | cons e es ih =>
    intro i s out r h
    rw [computeLoop] at h
    rcases hfe : s.FireEvent (σ i) e with _ | ⟨s1, _ | msg⟩
    · rw [hfe] at h; exact absurd h (by simp)
    · rw [hfe] at h
      exact (ih _ _ _ r h).trans (fireLoop_frame _ hfe).1
    · rw [hfe] at h
      simp only [Option.some.injEq] at h
      subst h
      exact (fireLoop_frame _ hfe).1

/-! ## C11: operators are checked when a transition is evaluated -/

/-- C11.  `LinkStates` stores a transition whatever operator its rule carries, and on a
machine whose lines have registered endpoints, if every rule of every transition leaving
the current state has the operator `eq`, then under every examination order `FireEvent`
returns success for every event; nothing is assumed about the transitions leaving other
states. -/
theorem FireEvent_eq_rules_succeed (σ : Sched) (hσ : σ.Valid) (s : StateMachine)
    (hg : s.g.WF) (e : Event)
    (hall : ∀ l ∈ s.g.outgoing s.PresentState.Id, ∀ r ∈ l.Rules, r.1 = "eq") :
    (∀ (c : Counters) (a b : State) (op : Operator) (v : Event),
      ({ Id := c.LineIdCntr, T := b, F := a, Rules := NewRule op v } : Link) ∈
        (s.LinkStates c a b (NewRule op v)).2.g.lines) ∧
    ∃ s1, s.FireEvent σ e = some (s1, none) := by
  refine ⟨?_, fireLoop_eq_only hσ hg e hall _ (fun _ hk => (hσ.1 _).mem_iff.mp hk)⟩
  intro c a b op v
  simp only [StateMachine.LinkStates, DirectedGraph.SetLine]
  exact List.mem_append_right _ (List.mem_singleton_self _)

/-- C11, witness: in the machine with the transitions a-eq(x)->b and b-lt(y)->a the
transition leaving `b` has an unsupported operator, and `FireEvent` from `a` succeeds. -/
theorem FireEvent_eq_rules_succeed_witness :
    ∃ c m, moveThenFail = some (c, m, ⟨0, Any.string "a"⟩, ⟨1, Any.string "b"⟩) ∧
      (∃ l ∈ m.g.lines, ("lt", "y") ∈ l.Rules) ∧
      ∃ s1, m.FireEvent Sched.stored "x" = some (s1, none) := by
  refine ⟨_, _, rfl, by decide, ?_⟩
  exact (FireEvent_eq_rules_succeed Sched.stored Sched.stored_valid _ (by decide) "x"
    (by decide)).2

/-! ## C16: event processing leaves the store alone -/

/-- C16.  Whatever `FireEvent` or `Compute` returns, success or error, the store of the
machine afterwards is the store before the call: the same registered states and the same
transitions with their ids, endpoints and rules. -/
theorem events_keep_store (σ1 : Sched) (σ : Nat → Sched) (s : StateMachine) (e : Event)
    (es : List String) (printState : Bool) :
    (∀ s1 err, s.FireEvent σ1 e = some (s1, err) → s1.g = s.g) ∧
    (∀ r, s.Compute σ es printState = some r → r.machine.g = s.g) :=
  ⟨fun _ _ h => (fireLoop_frame _ h).1, fun r h => computeLoop_frame σ printState es 0 s [] r h⟩

/-- C16, witness: the run on `["x", "z"]` in the machine with the transitions a-eq(x)->b
and b-lt(y)->a moves the current state, fails, and leaves the store as it was. -/
theorem events_keep_store_witness :
    ∃ c m r, moveThenFail = some (c, m, ⟨0, Any.string "a"⟩, ⟨1, Any.string "b"⟩) ∧
      m.Compute (fun _ => Sched.stored) ["x", "z"] false = some r ∧
      r.machine.PresentState ≠ m.PresentState ∧ r.machine.g = m.g := by
  refine ⟨_, _, ⟨_, State.zero, unsupportedOperator, []⟩, rfl, by rfl, by decide, ?_⟩
  exact (events_keep_store Sched.stored (fun _ => Sched.stored) _ "x" ["x", "z"] false).2 _
    (by rfl)

/-! ## C17: the current state moves only along a matching transition -/

/-- C17.  If `FireEvent` on `e` succeeds and the current state afterwards differs from
the current state before, then the store holds a transition that leaves the old current
state, reaches the id of the new one, and has the entry `eq -> e` among its rules; the
new current state is the state registered under that id. -/
theorem FireEvent_moves_along_transition (σ : Sched) (hσ : σ.Valid) (s s1 : StateMachine)
    (e : Event) (h : s.FireEvent σ e = some (s1, none))
    (hne : s1.PresentState ≠ s.PresentState) :
    ∃ l ∈ s.g.lines, l.F.Id = s.PresentState.Id ∧ l.T.Id = s1.PresentState.Id ∧
      ("eq", e) ∈ l.Rules ∧ s.g.Node l.T.Id = some s1.PresentState := by
  rcases fireLoop_moved hσ _ h with h0 | ⟨l, hl, hrule, hnode, hid⟩
  · exact absurd (by rw [h0]) hne
  · obtain ⟨hmem, hfrom⟩ := DirectedGraph.mem_outgoing.mp hl
    exact ⟨l, hmem, hfrom, hid.symm, hrule, hnode⟩

/-- C17, witness: in the turnstile the move from `locked` on `coin` goes along the
transition locked-eq(coin)->unlocked. -/
theorem FireEvent_moves_along_transition_witness :
    ∃ c m, turnstile =
        some (c, m, ⟨0, Any.string "locked"⟩, ⟨1, Any.string "unlocked"⟩) ∧
      ∃ l ∈ m.g.lines, l.F.Id = 0 ∧ l.T.Id = 1 ∧ ("eq", "coin") ∈ l.Rules ∧
        m.g.Node l.T.Id = some ⟨1, Any.string "unlocked"⟩ := by
  refine ⟨_, _, rfl, ?_⟩
  exact FireEvent_moves_along_transition Sched.stored Sched.stored_valid _
    ⟨⟨1, Any.string "unlocked"⟩, _⟩ "coin" (by rfl) (by decide)

/-! ## C20: what a failing `Compute` returns -/

/-- C20.  When the fold of `FireEvent` over the events runs into a failing call,
`Compute` returns that error together with the zero state (id 0, nil value), whatever
state the machine is in; the machine it leaves is the one reached by the events before
the failing one, with its current state kept in `PresentState`. -/
theorem Compute_error_returns_zero (σ : Nat → Sched) (s m : StateMachine)
    (es : List String) (printState : Bool) (msg : String)
    (h : foldFireEvent σ s es = some (m, some msg)) :
    (∃ out, s.Compute σ es printState = some ⟨m, State.zero, some msg, out⟩) ∧
    ∃ pre e post, es = pre ++ e :: post ∧ foldFireEvent σ s pre = some (m, none) ∧
      m.FireEvent (σ pre.length) e = some (m, some msg) := by
  have hfold : (s.Compute σ es printState).map (fun r => (r.machine, r.err)) =
      foldFireEvent σ s es := computeLoop_fold σ printState es 0 s []
  rw [h] at hfold
  cases hc : s.Compute σ es printState with
  | none => rw [hc] at hfold; exact absurd hfold (by simp)
  | some r =>
    rw [hc] at hfold
    simp only [Option.map_some', Option.some.injEq, Prod.mk.injEq] at hfold
    have herr : r.err ≠ none := by rw [hfold.2]; simp
    have hret := (computeLoop_ret σ printState es 0 s [] r hc).2 herr
    obtain ⟨pre, e, post, hes, hpre, hfire⟩ :=
      computeLoop_error σ printState es 0 s [] r hc herr
    obtain ⟨machine, ret, err, printed⟩ := r
    simp only at hfold hret hpre hfire
    obtain ⟨h1, h2⟩ := hfold
    subst h1 h2 hret
    exact ⟨⟨printed, rfl⟩, pre, e, post, hes, hpre, by simpa using hfire⟩

/-- C20, witness: the run on `["x", "z"]` in the machine with the transitions a-eq(x)->b
and b-lt(y)->a returns the zero state with the error while the current state is `b`. -/
theorem Compute_error_returns_zero_witness :
    ∃ c m, moveThenFail = some (c, m, ⟨0, Any.string "a"⟩, ⟨1, Any.string "b"⟩) ∧
      ∃ out, m.Compute (fun _ => Sched.stored) ["x", "z"] true =
        some ⟨{ m with PresentState := ⟨1, Any.string "b"⟩ }, State.zero,
          some "UNSUPPORTED_COMPARISON_OPERATOR", out⟩ := by
  refine ⟨_, _, rfl, ?_⟩
  exact (Compute_error_returns_zero (fun _ => Sched.stored) _ _ ["x", "z"] true
    "UNSUPPORTED_COMPARISON_OPERATOR" (by rfl)).1

/-! ## Allocation of states -/

theorem DirectedGraph.Node_eq_none_iff {g : DirectedGraph} {k : Int} :
    g.Node k = none ↔ ∀ n ∈ g.nodes, n.Id ≠ k := by
  simp [DirectedGraph.Node, List.find?_eq_none, State.ID]

/-- The method `AddNode` returns exactly when the id of the node is not registered, and
then appends the node. -/
theorem DirectedGraph.AddNode_eq (g : DirectedGraph) (n : State) :
    g.AddNode n = if g.Node n.Id = none then some { g with nodes := g.nodes ++ [n] }
      else none := by
  unfold DirectedGraph.AddNode
  cases h : g.Node n.ID with
  | none => simp only [State.ID] at h; simp [h]
  | some x => simp only [State.ID] at h; simp [h]

/-- What `NewState` does when the id held by the counter is not registered. -/
theorem NewState_eq {c : Counters} {s : StateMachine} (v : Any)
    (hfresh : s.g.Node c.NodeIdCntr = none) :
    s.NewState c v =
      some ({ c with NodeIdCntr := wrapInt (c.NodeIdCntr + 1) },
        { s with g := { s.g with nodes := s.g.nodes ++ [⟨c.NodeIdCntr, v⟩] } },
        ⟨c.NodeIdCntr, v⟩) := by
  simp only [StateMachine.NewState, DirectedGraph.AddNode_eq, hfresh, if_true]

/-- What `Init` does when the id held by the counter is not registered. -/
theorem Init_eq {c : Counters} {s : StateMachine} (v : Any)
    (hfresh : s.g.Node c.NodeIdCntr = none) :
    s.Init c v =
      some ({ c with NodeIdCntr := wrapInt (c.NodeIdCntr + 1) },
        { PresentState := ⟨c.NodeIdCntr, v⟩,
          g := { s.g with nodes := s.g.nodes ++ [⟨c.NodeIdCntr, v⟩] } },
        ⟨c.NodeIdCntr, v⟩) := by
  simp only [StateMachine.Init, DirectedGraph.AddNode_eq, hfresh, if_true]

/-- The calls `NewState` and `Init` fail when the id held by the counter is registered. -/
theorem alloc_collision {c : Counters} {s : StateMachine} (v : Any) {n : State}
    (h : s.g.Node c.NodeIdCntr = some n) : s.NewState c v = none ∧ s.Init c v = none := by
  constructor
  · simp only [StateMachine.NewState, DirectedGraph.AddNode_eq, h]; rfl
  · simp only [StateMachine.Init, DirectedGraph.AddNode_eq, h]; rfl

/-! ## C12: `NewState` -/

/-- C12, counterexample.  On the machine made by `New` and one `LinkStates` call from
the machine's own `PresentState` to itself, with the counters as the package initialises
them, the zero state is registered under id 0 and `NodeIdCntr` is still 0; the call
`NewState("b")` does not return a state: `AddNode` stops it on the id collision. -/
theorem NewState_collision :
    linkedBeforeInit.1 = ⟨0, 2⟩ ∧
    linkedBeforeInit.2.g.Node 0 = some State.zero ∧
    linkedBeforeInit.2.NewState linkedBeforeInit.1 (Any.string "b") = none := by
  refine ⟨by decide, by decide, by decide⟩

/-- C12, amended.  On a machine in which no state is registered under the id that
`NodeIdCntr` holds, `NewState(v)` returns the state with that id and the value `v`; the
store afterwards has the old registered states followed by exactly that new state, the
same transitions, and the machine has the same current state; the counter has advanced
by one (with wrap-around) and `LineIdCntr` is unchanged. -/
theorem NewState_registers_one (c : Counters) (s : StateMachine) (v : Any)
    (hfresh : s.g.Node c.NodeIdCntr = none) :
    (∀ n ∈ s.g.nodes, n.Id ≠ c.NodeIdCntr) ∧
    s.NewState c v =
      some (⟨wrapInt (c.NodeIdCntr + 1), c.LineIdCntr⟩,
        ⟨s.PresentState, ⟨s.g.nodes ++ [⟨c.NodeIdCntr, v⟩], s.g.lines⟩⟩,
        ⟨c.NodeIdCntr, v⟩) :=
  ⟨DirectedGraph.Node_eq_none_iff.mp hfresh, NewState_eq v hfresh⟩

/-- C12, witness: a third state added to the turnstile. -/
theorem NewState_registers_one_witness :
    ∃ c m, turnstile =
        some (c, m, ⟨0, Any.string "locked"⟩, ⟨1, Any.string "unlocked"⟩) ∧
      c = ⟨2, 5⟩ ∧
      m.NewState c (Any.string "broken") =
        some (⟨3, 5⟩,
          ⟨m.PresentState, ⟨m.g.nodes ++ [⟨2, Any.string "broken"⟩], m.g.lines⟩⟩,
          ⟨2, Any.string "broken"⟩) := by
  refine ⟨_, _, rfl, rfl, ?_⟩
  exact (NewState_registers_one ⟨2, 5⟩ _ (Any.string "broken") (by decide)).2

/-! ## C13: `Init` -/

/-- C13, counterexample.  On the machine made by `New` and one `LinkStates` call from
the machine's own `PresentState` to itself, with the counters as the package initialises
them, the zero state is registered under id 0 and `NodeIdCntr` is still 0; the call
`Init("locked")` does not return a state: `AddNode` stops it on the id collision. -/
theorem Init_collision :
    linkedBeforeInit.2.PresentState = State.zero ∧
    linkedBeforeInit.2.g.nodes = [State.zero] ∧
    linkedBeforeInit.1.NodeIdCntr = 0 ∧
    linkedBeforeInit.2.Init linkedBeforeInit.1 (Any.string "locked") = none := by
  refine ⟨by decide, by decide, by decide, by decide⟩

/-- C13, amended.  On a machine in which no state is registered under the id that
`NodeIdCntr` holds, `Init(v)` returns the state with that id and the value `v` and makes
it the current state; the store afterwards has the old registered states followed by
that new state and the same transitions, also when the machine already had states; the
counter has advanced by one (with wrap-around) and `LineIdCntr` is unchanged. -/
theorem Init_registers_current (c : Counters) (s : StateMachine) (v : Any)
    (hfresh : s.g.Node c.NodeIdCntr = none) :
    (∀ n ∈ s.g.nodes, n.Id ≠ c.NodeIdCntr) ∧
    s.Init c v =
      some (⟨wrapInt (c.NodeIdCntr + 1), c.LineIdCntr⟩,
        ⟨⟨c.NodeIdCntr, v⟩, ⟨s.g.nodes ++ [⟨c.NodeIdCntr, v⟩], s.g.lines⟩⟩,
        ⟨c.NodeIdCntr, v⟩) :=
  ⟨DirectedGraph.Node_eq_none_iff.mp hfresh, Init_eq v hfresh⟩

/-- C13, witness: `Init` called again on the turnstile resets the current state and keeps
the two states and four transitions. -/
theorem Init_registers_current_witness :
    ∃ c m, turnstile =
        some (c, m, ⟨0, Any.string "locked"⟩, ⟨1, Any.string "unlocked"⟩) ∧
      c = ⟨2, 5⟩ ∧ m.g.nodes.length = 2 ∧ m.g.lines.length = 4 ∧
      m.Init c (Any.string "again") =
        some (⟨3, 5⟩,
          ⟨⟨2, Any.string "again"⟩, ⟨m.g.nodes ++ [⟨2, Any.string "again"⟩], m.g.lines⟩⟩,
          ⟨2, Any.string "again"⟩) := by
  refine ⟨_, _, rfl, rfl, by decide, by decide, ?_⟩
  exact (Init_registers_current ⟨2, 5⟩ _ (Any.string "again") (by decide)).2

/-! ## Allocation of identifiers over a sequence of calls -/

theorem wrapInt_succ {n : Int} (h0 : 0 ≤ n) (h1 : n + 1 < 2 ^ 63) : wrapInt (n + 1) = n + 1 := by
  unfold wrapInt
  omega

/-- What a returning `Init` or `NewState` yields: the state with the id the counter held,
and the counter advanced. -/
theorem alloc_some {c c1 : Counters} {s s1 : StateMachine} {v : Any} {n : State}
    (h : s.Init c v = some (c1, s1, n) ∨ s.NewState c v = some (c1, s1, n)) :
    n.Id = c.NodeIdCntr ∧ c1 = ⟨wrapInt (c.NodeIdCntr + 1), c.LineIdCntr⟩ := by
  rcases h with h | h
  · unfold StateMachine.Init at h
    simp only at h
    split at h
    · exact absurd h (by simp)
    · simp only [Option.some.injEq, Prod.mk.injEq] at h
      exact ⟨by rw [← h.2.2], h.1.symm⟩
  · unfold StateMachine.NewState at h
    simp only at h
    split at h
    · exact absurd h (by simp)
    · simp only [Option.some.injEq, Prod.mk.injEq] at h
      exact ⟨by rw [← h.2.2], h.1.symm⟩

/-- The transition that `LinkStates` stores is the last line of the store and has the
id the counter held. -/
theorem LinkStates_last (c : Counters) (s : StateMachine) (s1 s2 : State)
    (rule : List (Operator × Event)) :
    (s.LinkStates c s1 s2 rule).2.g.lines.getLast? =
      some { Id := c.LineIdCntr, T := s2, F := s1, Rules := rule } ∧
    (s.LinkStates c s1 s2 rule).1 = ⟨c.NodeIdCntr, wrapInt (c.LineIdCntr + 1)⟩ := by
  constructor
  · simp only [StateMachine.LinkStates, DirectedGraph.SetLine]
    exact List.getLast?_concat _
  · rfl

theorem Process.Inv.mono {k k1 : Nat} {p : Process} (h : p.Inv k) (hk : k ≤ k1) :
    p.Inv k1 := by
  obtain ⟨⟨a1, a2⟩, ⟨b1, b2⟩, rest⟩ := h
  have hk1 : (k : Int) ≤ (k1 : Int) := by exact_mod_cast hk
  exact ⟨⟨a1, by omega⟩, ⟨b1, by omega⟩, rest⟩

theorem Process.start_inv : Process.start.Inv 0 := by
  refine ⟨⟨by decide, by decide⟩, ⟨by decide, by decide⟩, ?_, ?_, fun _ => rfl, ?_,
    List.Pairwise.nil, List.Pairwise.nil⟩
  · intro i hi; exact absurd hi (List.not_mem_nil i)
  · intro i hi; exact absurd hi (List.not_mem_nil i)
  · intro x hx; exact absurd hx (by simp [Process.start])

theorem pairwise_concat_lt {l : List Int} {x : Int} (hl : l.Pairwise (fun a b => a < b))
    (hx : ∀ i ∈ l, i < x) : (l ++ [x]).Pairwise (fun a b => a < b) := by
  rw [List.pairwise_append]
  refine ⟨hl, List.pairwise_singleton _ _, ?_⟩
  intro a ha b hb
  rw [List.mem_singleton.mp hb]
  exact hx a ha

/-- An allocation of a state keeps the invariant. -/
theorem Process.Inv.alloc_state {k : Nat} {p : Process} (h : p.Inv k)
    (hk : (k : Int) + 2 < 2 ^ 63) (ms : Nat → StateMachine) :
    Process.Inv (k + 1) ⟨⟨wrapInt (p.counters.NodeIdCntr + 1), p.counters.LineIdCntr⟩, ms,
      p.stateIds ++ [p.counters.NodeIdCntr], p.lineIds⟩ := by
  obtain ⟨⟨a1, a2⟩, ⟨b1, b2⟩, hs, hl, hemp, hhead, ps, pl⟩ := h
  have hw : wrapInt (p.counters.NodeIdCntr + 1) = p.counters.NodeIdCntr + 1 :=
    wrapInt_succ a1 (by omega)
  refine ⟨⟨?_, ?_⟩, ⟨b1, ?_⟩, ?_, hl, hemp, hhead, pairwise_concat_lt ps hs, pl⟩
  · simp only [hw]; omega
  · simp only [hw]; push_cast; omega
  · simp only; push_cast; omega
  · intro i hi
    simp only [hw]
    rcases List.mem_append.mp hi with h1 | h1
    · have := hs i h1; omega
    · rw [List.mem_singleton.mp h1]; omega

/-- The storing of a transition keeps the invariant. -/
theorem Process.Inv.alloc_line {k : Nat} {p : Process} (h : p.Inv k)
    (hk : (k : Int) + 2 < 2 ^ 63) (ms : Nat → StateMachine) :
    Process.Inv (k + 1) ⟨⟨p.counters.NodeIdCntr, wrapInt (p.counters.LineIdCntr + 1)⟩, ms,
      p.stateIds, p.lineIds ++ [p.counters.LineIdCntr]⟩ := by
  obtain ⟨⟨a1, a2⟩, ⟨b1, b2⟩, hs, hl, hemp, hhead, ps, pl⟩ := h
  have hw : wrapInt (p.counters.LineIdCntr + 1) = p.counters.LineIdCntr + 1 :=
    wrapInt_succ (by omega) (by omega)
  refine ⟨⟨a1, ?_⟩, ⟨?_, ?_⟩, hs, ?_, ?_, ?_, ps, pairwise_concat_lt pl hl⟩
  · simp only; push_cast; omega
  · simp only [hw]; omega
  · simp only [hw]; push_cast; omega
  · intro i hi
    simp only [hw]
    rcases List.mem_append.mp hi with h1 | h1
    · have := hl i h1; omega
    · rw [List.mem_singleton.mp h1]; omega
  · intro hnil
    exact absurd hnil (by simp)
  · intro x hx
    cases hli : p.lineIds with
    | nil =>
      rw [hli] at hx
      simp only [List.nil_append, List.head?_cons, Option.some.injEq] at hx
      rw [← hx]; exact hemp hli
    | cons y ys =>
      rw [hli] at hx
      simp only [List.cons_append, List.head?_cons, Option.some.injEq] at hx
      exact hhead x (by rw [hli, List.head?_cons, hx])

/-- One returning call keeps the invariant. -/
theorem Process.Inv.call {k : Nat} {p q : Process} (h : p.Inv k)
    (hk : (k : Int) + 2 < 2 ^ 63) (c : Call) (hq : p.call c = some q) : q.Inv (k + 1) := by
  cases c with
  | init i v =>
    simp only [Process.call] at hq
    split at hq
    · exact absurd hq (by simp)
    · rename_i c1 m n hinit
      obtain ⟨hn, hc⟩ := alloc_some (Or.inl hinit)
      simp only [Option.some.injEq] at hq
      rw [← hq, hn, hc]
      exact h.alloc_state hk _
  | newState i v =>
    simp only [Process.call] at hq
    split at hq
    · exact absurd hq (by simp)
    · rename_i c1 m n hnew
      obtain ⟨hn, hc⟩ := alloc_some (Or.inr hnew)
      simp only [Option.some.injEq] at hq
      rw [← hq, hn, hc]
      exact h.alloc_state hk _
  | linkStates i s1 s2 rule =>
    obtain ⟨hlast, hcnt⟩ := LinkStates_last p.counters (p.machines i) s1 s2 rule
    simp only [Process.call, hlast, hcnt, Option.some.injEq] at hq
    rw [← hq]
    exact h.alloc_line hk _

/-- A run keeps the invariant as long as the counters cannot overflow. -/
theorem Process.Inv.run (cs : List Call) :
    ∀ (k : Nat) (p : Process), p.Inv k → (k : Int) + cs.length + 1 < 2 ^ 63 →
      (p.run cs).Inv (k + cs.length) := by
  induction cs with
  | nil => intro k p h _; exact h
  | cons c cs ih =>
    intro k p h hk
    simp only [List.length_cons, Nat.cast_add, Nat.cast_one] at hk
    rw [Process.run]
    cases hq : p.call c with
    | none => exact h.mono (Nat.le_add_right _ _)
    | some q =>
      have hq1 := h.call (by omega) c hq
      have := ih (k + 1) q hq1 (by push_cast; omega)
      simp only [List.length_cons]
      rw [show k + (cs.length + 1) = k + 1 + cs.length by omega]
      exact this

/-- A call of `NewState` on a machine where the id held by the counter is free. -/
theorem Process.call_newState_fresh (p : Process) (i : Nat) (v : Any)
    (hfresh : (p.machines i).g.Node p.counters.NodeIdCntr = none) :
    ∃ ms, p.call (Call.newState i v) =
        some ⟨⟨wrapInt (p.counters.NodeIdCntr + 1), p.counters.LineIdCntr⟩, ms,
          p.stateIds ++ [p.counters.NodeIdCntr], p.lineIds⟩ ∧
      (ms i).g.nodes = (p.machines i).g.nodes ++ [⟨p.counters.NodeIdCntr, v⟩] := by
  refine ⟨Function.update p.machines i
    { p.machines i with
      g := { (p.machines i).g with
        nodes := (p.machines i).g.nodes ++ [⟨p.counters.NodeIdCntr, v⟩] } }, ?_, ?_⟩
  · simp only [Process.call, NewState_eq v hfresh]
  · simp only [Function.update_same]

/-- A block of `m` calls of `NewState` on machine 0, started where the counter holds
`k` and the registered ids of machine 0 lie in `[0, k)`, runs through without overflow
and leaves the counter at `k + m`. -/
theorem Process.run_newStates (m : Nat) :
    ∀ (p : Process) (k : Nat) (rest : List Call), p.counters.NodeIdCntr = k →
      (∀ x ∈ (p.machines 0).g.nodes, 0 ≤ x.Id ∧ x.Id < k) → (k : Int) + m < 2 ^ 63 →
      ∃ q : Process, p.run (List.replicate m (Call.newState 0 Any.nil) ++ rest) = q.run rest ∧
        q.counters.NodeIdCntr = k + m ∧
        (∀ x ∈ (q.machines 0).g.nodes, 0 ≤ x.Id ∧ x.Id < (k : Int) + m) := by
  induction m with
  | zero =>
    intro p k rest hk hn _
    exact ⟨p, rfl, by simpa using hk, by simpa using hn⟩
  | succ m ih =>
    intro p k rest hk hn hb
    have hfresh : (p.machines 0).g.Node p.counters.NodeIdCntr = none := by
      apply DirectedGraph.Node_eq_none_iff.mpr
      intro x hx
      have := (hn x hx).2
      omega
    obtain ⟨ms, hcall, hnodes⟩ := p.call_newState_fresh 0 Any.nil hfresh
    have hw : wrapInt (p.counters.NodeIdCntr + 1) = ((k + 1 : Nat) : Int) := by
      rw [wrapInt_succ (by omega) (by push_cast at hb; omega), hk]; push_cast; rfl
    obtain ⟨q, hq, hqc, hqn⟩ := ih
      ⟨⟨wrapInt (p.counters.NodeIdCntr + 1), p.counters.LineIdCntr⟩, ms,
        p.stateIds ++ [p.counters.NodeIdCntr], p.lineIds⟩ (k + 1) rest hw
      (by
        intro x hx
        simp only [hnodes] at hx
        rcases List.mem_append.mp hx with h1 | h1
        · have := hn x h1; push_cast; omega
        · rw [List.mem_singleton.mp h1]; simp only; push_cast; omega)
      (by push_cast at hb ⊢; omega)
    refine ⟨q, ?_, by rw [hqc]; push_cast; omega, ?_⟩
    · rw [List.replicate_succ, List.cons_append, Process.run, hcall]
      exact hq
    · intro x hx
      have := hqn x hx
      push_cast at this ⊢
      omega

/-! ## C14: identifiers over a sequence of calls -/

/-- C14, counterexample.  The run of `2 ^ 63 + 1` calls of `NewState` on one machine,
from the start of the process, returns every time; the last two states it returns have
the ids `2 ^ 63 - 1` and then `- 2 ^ 63`: the counter has wrapped around, and the ids
returned are not strictly increasing. -/
theorem state_ids_wrap_around :
    (∃ ids, (Process.start.run overflowRun).stateIds = ids ++ [2 ^ 63 - 1, - 2 ^ 63]) ∧
    ¬ (Process.start.run overflowRun).stateIds.Pairwise (fun a b => a < b) := by
  have key : ∃ ids, (Process.start.run overflowRun).stateIds =
      ids ++ [2 ^ 63 - 1, - 2 ^ 63] := by
    have hsplit : (2 ^ 63 + 1 : Nat) = (2 ^ 63 - 1) + 2 := by norm_num
    obtain ⟨q, hq, hqc, hqn⟩ := Process.run_newStates (2 ^ 63 - 1) Process.start 0
      (List.replicate 2 (Call.newState 0 Any.nil)) rfl
      (by intro x hx; exact absurd hx (List.not_mem_nil x)) (by norm_num)
    have hqc1 : q.counters.NodeIdCntr = 2 ^ 63 - 1 := by rw [hqc]; norm_num
    have hfresh1 : (q.machines 0).g.Node q.counters.NodeIdCntr = none := by
      apply DirectedGraph.Node_eq_none_iff.mpr
      intro x hx
      have h1 := (hqn x hx).2
      rw [hqc]
      omega
    obtain ⟨ms1, hcall1, hnodes1⟩ := q.call_newState_fresh 0 Any.nil hfresh1
    have hw : wrapInt (q.counters.NodeIdCntr + 1) = - 2 ^ 63 := by
      rw [hqc1]; unfold wrapInt; norm_num
    have hfresh2 : (ms1 0).g.Node (wrapInt (q.counters.NodeIdCntr + 1)) = none := by
      apply DirectedGraph.Node_eq_none_iff.mpr
      intro x hx
      rw [hw]
      rw [hnodes1] at hx
      rcases List.mem_append.mp hx with h1 | h1
      · have := (hqn x h1).1; omega
      · rw [List.mem_singleton.mp h1]; simp only; rw [hqc1]; norm_num
    obtain ⟨ms2, hcall2, _⟩ := Process.call_newState_fresh
      ⟨⟨wrapInt (q.counters.NodeIdCntr + 1), q.counters.LineIdCntr⟩, ms1,
        q.stateIds ++ [q.counters.NodeIdCntr], q.lineIds⟩ 0 Any.nil hfresh2
    dsimp only at hcall2
    refine ⟨q.stateIds, ?_⟩
    unfold overflowRun
    rw [hsplit, List.replicate_add, hq]
    have h2 : List.replicate 2 (Call.newState 0 Any.nil) =
        [Call.newState 0 Any.nil, Call.newState 0 Any.nil] := rfl
    rw [h2]
    simp only [Process.run, hcall1, hcall2, List.append_assoc, List.singleton_append]
    rw [hw, hqc1]
  refine ⟨key, ?_⟩
  obtain ⟨ids, hids⟩ := key
  rw [hids, List.pairwise_append]
  intro h
  have h2 := h.2.1
  rw [List.pairwise_pair] at h2
  norm_num at h2

/-- C14, amended.  Over every sequence of `Init`, `NewState` and `LinkStates` calls, on
any of the machines sharing the counters, from the start of the process, that is shorter
than `2 ^ 63 - 1` calls (so that the counters cannot overflow): the ids of the states
returned are strictly increasing in the order of the calls, the ids of the transitions
stored are strictly increasing, the first transition id is 1, and hence the state ids
are pairwise distinct and the transition ids are pairwise distinct. -/
theorem ids_strictly_increase (calls : List Call) (hlen : calls.length + 1 < 2 ^ 63) :
    (Process.start.run calls).stateIds.Pairwise (fun a b => a < b) ∧
    (Process.start.run calls).lineIds.Pairwise (fun a b => a < b) ∧
    (∀ x, (Process.start.run calls).lineIds.head? = some x → x = 1) ∧
    (Process.start.run calls).stateIds.Nodup ∧
    (Process.start.run calls).lineIds.Nodup := by
  have hb : ((0 : Nat) : Int) + calls.length + 1 < 2 ^ 63 := by
    have : ((calls.length + 1 : Nat) : Int) < ((2 ^ 63 : Nat) : Int) := by exact_mod_cast hlen
    push_cast at this ⊢
    omega
  obtain ⟨_, _, _, _, _, hhead, ps, pl⟩ :=
    Process.Inv.run calls 0 Process.start Process.start_inv hb
  exact ⟨ps, pl, hhead, ps.imp (fun h => ne_of_lt h), pl.imp (fun h => ne_of_lt h)⟩

/-- C14, witness: two machines sharing the counters; the states get the ids 0, 1, 2 and
the transitions the ids 1, 2. -/
theorem ids_strictly_increase_witness :
    (Process.start.run
        [Call.init 0 (Any.string "a"), Call.init 1 (Any.string "b"),
          Call.linkStates 0 ⟨0, Any.string "a"⟩ ⟨0, Any.string "a"⟩ (NewRule "eq" "x"),
          Call.newState 0 (Any.string "c"),
          Call.linkStates 1 ⟨1, Any.string "b"⟩ ⟨1, Any.string "b"⟩
            (NewRule "eq" "y")]).stateIds = [0, 1, 2] ∧
    (Process.start.run
        [Call.init 0 (Any.string "a"), Call.init 1 (Any.string "b"),
          Call.linkStates 0 ⟨0, Any.string "a"⟩ ⟨0, Any.string "a"⟩ (NewRule "eq" "x"),
          Call.newState 0 (Any.string "c"),
          Call.linkStates 1 ⟨1, Any.string "b"⟩ ⟨1, Any.string "b"⟩
            (NewRule "eq" "y")]).lineIds = [1, 2] ∧
    (Process.start.run
        [Call.init 0 (Any.string "a"), Call.init 1 (Any.string "b"),
          Call.linkStates 0 ⟨0, Any.string "a"⟩ ⟨0, Any.string "a"⟩ (NewRule "eq" "x"),
          Call.newState 0 (Any.string "c"),
          Call.linkStates 1 ⟨1, Any.string "b"⟩ ⟨1, Any.string "b"⟩
            (NewRule "eq" "y")]).stateIds.Pairwise (fun a b => a < b) := by
  refine ⟨by decide, by decide, ?_⟩
  exact (ids_strictly_increase _ (by decide)).1

/-! ## Invariants of the machines the program can build -/

/-- A returning successor loop leaves the machine as it was or moves the present state
to a registered node. -/
theorem fireLoop_present {σ : Sched} {s s1 : StateMachine} {e : Event} {err : error}
    (ks : List Int) (h : fireLoop σ s e ks = some (s1, err)) :
    s1 = s ∨ (s1.g = s.g ∧ s.g.Node s1.PresentState.Id = some s1.PresentState) := by
  induction ks with
  | nil =>
    simp only [fireLoop, Option.some.injEq, Prod.mk.injEq] at h
    exact Or.inl h.1.symm
  | cons k rest ih =>
    rw [fireLoop] at h
    split at h
    · exact absurd h (by simp)
    · rename_i itNode _
      split at h
      · exact absurd h (by simp)
      · rename_i n hn
        split at h
        · exact absurd h (by simp)
        · split at h
          · simp only [Option.some.injEq, Prod.mk.injEq] at h
            rw [← h.1]
            have hid : n.Id = itNode.ID := DirectedGraph.Node_id hn
            exact Or.inr ⟨rfl, by show s.g.Node n.Id = some n; rw [hid]; exact hn⟩
          · simp only [Option.some.injEq, Prod.mk.injEq] at h
            exact Or.inl h.1.symm
          · exact ih h

/-- The method `FireEvent` keeps the present state registered. -/
theorem FireEvent_keeps_registered {σ : Sched} {s s1 : StateMachine} {e : Event}
    {err : error} (h : s.FireEvent σ e = some (s1, err))
    (hreg : (s.g.Node s.PresentState.Id).isSome = true) :
    (s1.g.Node s1.PresentState.Id).isSome = true := by
  rcases fireLoop_present _ h with h0 | ⟨hg, hn⟩
  · rw [h0]; exact hreg
  · rw [hg, hn]; rfl

/-- The loop of `Compute` keeps the present state registered. -/
theorem computeLoop_keeps_registered (σ : Nat → Sched) (pr : Bool) (es : List String) :
    ∀ (i : Nat) (s : StateMachine) (out : List State) (r : ComputeResult),
      computeLoop σ pr i s out es = some r →
      (s.g.Node s.PresentState.Id).isSome = true →
      (r.machine.g.Node r.machine.PresentState.Id).isSome = true := by
  induction es with
  | nil =>
    intro i s out r h hreg
    simp only [computeLoop, Option.some.injEq] at h
    subst h; exact hreg
  | cons e es ih =>
    intro i s out r h hreg
    rw [computeLoop] at h
    rcases hfe : s.FireEvent (σ i) e with _ | ⟨s1, _ | msg⟩
    · rw [hfe] at h; exact absurd h (by simp)
    · rw [hfe] at h
      exact ih _ _ _ r h (FireEvent_keeps_registered hfe hreg)
    · rw [hfe] at h
      simp only [Option.some.injEq] at h
      subst h
      exact FireEvent_keeps_registered hfe hreg

/-- Every machine the program can build has a well-formed store. -/
theorem Built.wf {b : Bool} {s : StateMachine} (h : Built b s) : s.g.WF := by
  induction h with
  | new => exact setup_WF.1
  | init _ hinit ih => exact setup_WF.2.1 _ _ _ _ _ _ ih hinit
  | newState _ hnew ih => exact setup_WF.2.2.1 _ _ _ _ _ _ ih hnew
  | linkStates c s1 s2 rule _ ih => exact setup_WF.2.2.2 c _ s1 s2 rule ih
  | fireEvent _ hfire ih => rw [(fireLoop_frame _ hfire).1]; exact ih
  | compute _ hcomp ih => rw [computeLoop_frame _ _ _ _ _ _ _ hcomp]; exact ih

/-- Once `Init` has been called, the present state of a machine the program can build is
registered. -/
theorem Built.registered {b : Bool} {s : StateMachine} (h : Built b s) :
    b = true → (s.g.Node s.PresentState.Id).isSome = true := by
  induction h with
  | new => intro hb; exact absurd hb (by simp)
  | @init b c c1 s s1 v n _ hinit _ =>
    intro _
    unfold StateMachine.Init at hinit
    simp only [DirectedGraph.AddNode_eq] at hinit
    split at hinit
    · exact absurd hinit (by simp)
    · rename_i g1 hadd
      simp only [Option.some.injEq, Prod.mk.injEq] at hinit
      rw [← hinit.2.1]
      split at hadd
      · simp only [Option.some.injEq] at hadd
        rw [← hadd]
        exact DirectedGraph.Node_isSome_iff.mpr
          ⟨_, List.mem_append_right _ (List.mem_singleton_self _), rfl⟩
      · exact absurd hadd (by simp)
  | @newState b c c1 s s1 v n _ hnew ih =>
    intro hb
    have hreg := ih hb
    unfold StateMachine.NewState at hnew
    simp only [DirectedGraph.AddNode_eq] at hnew
    split at hnew
    · exact absurd hnew (by simp)
    · rename_i g1 hadd
      simp only [Option.some.injEq, Prod.mk.injEq] at hnew
      rw [← hnew.2.1]
      split at hadd
      · simp only [Option.some.injEq] at hadd
        rw [← hadd]
        obtain ⟨m, hm, hmk⟩ := DirectedGraph.Node_isSome_iff.mp hreg
        exact DirectedGraph.Node_isSome_iff.mpr ⟨m, List.mem_append_left _ hm, hmk⟩
      · exact absurd hadd (by simp)
  | linkStates c s1 s2 rule _ ih =>
    intro hb
    exact DirectedGraph.setNode_keeps _ (DirectedGraph.setNode_keeps _ (ih hb))
  | fireEvent _ hfire ih => intro hb; exact FireEvent_keeps_registered hfire (ih hb)
  | compute _ hcomp ih =>
    intro hb
    exact computeLoop_keeps_registered _ _ _ _ _ _ _ hcomp (ih hb)

/-- The turnstile is a machine the program can build, with `Init` called. -/
theorem turnstile_built (r : Counters × StateMachine × State × State)
    (h : turnstile = some r) : Built true r.2.1 := by
  have h1 : Built true _ :=
    Built.init (c := Counters.initial) (v := Any.string "locked") Built.new rfl
  have h2 : Built true _ := Built.newState (c := ⟨1, 1⟩) (v := Any.string "unlocked") h1 rfl
  have h3 := Built.linkStates ⟨2, 1⟩ ⟨0, Any.string "locked"⟩ ⟨1, Any.string "unlocked"⟩
    (NewRule "eq" "coin") h2
  have h4 := Built.linkStates ⟨2, 2⟩ ⟨1, Any.string "unlocked"⟩ ⟨0, Any.string "locked"⟩
    (NewRule "eq" "push") h3
  have h5 := Built.linkStates ⟨2, 3⟩ ⟨0, Any.string "locked"⟩ ⟨0, Any.string "locked"⟩
    (NewRule "eq" "push") h4
  have h6 := Built.linkStates ⟨2, 4⟩ ⟨1, Any.string "unlocked"⟩ ⟨1, Any.string "unlocked"⟩
    (NewRule "eq" "coin") h5
  have hr : turnstile = some (_, _, _, _) := rfl
  rw [hr] at h
  rw [← Option.some.inj h]
  exact h6

/-! ## C15: the current state is registered -/

/-- C15.  On every machine the program can build on which `Init` has been called, after
any further calls of `Init`, `NewState`, `LinkStates`, `FireEvent` and `Compute` that
return, the id of the current state is the id of a state registered in the store. -/
theorem present_state_registered (s : StateMachine) (h : Built true s) :
    ∃ n ∈ s.g.nodes, n.Id = s.PresentState.Id :=
  DirectedGraph.Node_isSome_iff.mp (h.registered rfl)

/-- C15, witness: the turnstile after the event `coin`. -/
theorem present_state_registered_witness :
    ∃ c m s1, turnstile =
        some (c, m, ⟨0, Any.string "locked"⟩, ⟨1, Any.string "unlocked"⟩) ∧
      m.FireEvent Sched.stored "coin" = some (s1, none) ∧
      s1.PresentState = ⟨1, Any.string "unlocked"⟩ ∧
      ∃ n ∈ s1.g.nodes, n.Id = s1.PresentState.Id := by
  refine ⟨_, _, _, rfl, rfl, rfl, ?_⟩
  exact present_state_registered _
    (Built.fireEvent (σ := Sched.stored) (e := "coin") (turnstile_built _ rfl) rfl)

/-! ## C18: `FireEvent` is total on the machines the program can build -/

/-- C18.  On every machine the program can build, under every examination order and for
every event, `FireEvent` returns, with success or with the unsupported-operator error
and the machine unchanged; every successor reported for the current state is a
registered state, and the lines from the current state to it are not empty, so that
element 0 exists.  (Nodes are `State`s and lines are `Link`s by the types of the
store.) -/
theorem FireEvent_total (b : Bool) (s : StateMachine) (h : Built b s) (σ : Sched)
    (hσ : σ.Valid) (e : Event) :
    ((∃ s1, s.FireEvent σ e = some (s1, none)) ∨
      s.FireEvent σ e = some (s, unsupportedOperator)) ∧
    ∀ k ∈ σ.nodes (s.g.fromKeys s.PresentState.Id),
      (∃ n, s.g.Node k = some n ∧ n.Id = k) ∧
      ∃ line tl, σ.lines (s.g.linesBetween s.PresentState.Id k) = line :: tl := by
  have hks : ∀ k ∈ σ.nodes (s.g.fromKeys s.PresentState.Id),
      k ∈ s.g.fromKeys s.PresentState.Id := fun _ hk => (hσ.1 _).mem_iff.mp hk
  refine ⟨fireLoop_total hσ h.wf e _ hks, ?_⟩
  intro k hk
  obtain ⟨n, line, tl, hn, hid, hhead, _, _⟩ := examined_line hσ h.wf (hks k hk)
  exact ⟨⟨n, hn, hid⟩, line, tl, hhead⟩

/-- C18, witness: the turnstile, examined in reverse order, on the event `coin`. -/
theorem FireEvent_total_witness :
    ∃ c m, turnstile =
        some (c, m, ⟨0, Any.string "locked"⟩, ⟨1, Any.string "unlocked"⟩) ∧
      ((∃ s1, m.FireEvent Sched.reversed "coin" = some (s1, none)) ∨
        m.FireEvent Sched.reversed "coin" = some (m, unsupportedOperator)) := by
  refine ⟨_, _, rfl, ?_⟩
  exact (FireEvent_total true _ (turnstile_built _ rfl) Sched.reversed Sched.reversed_valid
    "coin").1

/-! ## C19: the examination order does not matter in an unambiguous configuration -/

/-- C19.  On a machine whose lines have registered endpoints: if every transition
leaving the current state has a single-entry rule with the operator `eq`, no two
transitions leaving it reach the same target, and at most one transition leaving it has
the comparison value `e`, then `FireEvent` on `e` returns success and the same machine
under any two examination orders. -/
theorem FireEvent_order_independent (σ1 σ2 : Sched) (h1 : σ1.Valid) (h2 : σ2.Valid)
    (s : StateMachine) (hg : s.g.WF) (e : Event)
    (hsingle : ∀ l ∈ s.g.outgoing s.PresentState.Id,
      l.Rules.length = 1 ∧ ∀ r ∈ l.Rules, r.1 = "eq")
    (htarget : ∀ l1 ∈ s.g.outgoing s.PresentState.Id,
      ∀ l2 ∈ s.g.outgoing s.PresentState.Id, l1.T.Id = l2.T.Id → l1 = l2)
    (hone : ∀ l1 ∈ s.g.outgoing s.PresentState.Id,
      ∀ l2 ∈ s.g.outgoing s.PresentState.Id,
        (∃ r ∈ l1.Rules, r.2 = e) → (∃ r ∈ l2.Rules, r.2 = e) → l1 = l2) :
    s.FireEvent σ1 e = s.FireEvent σ2 e ∧ ∃ s1, s.FireEvent σ1 e = some (s1, none) := by
  have heq : ∀ l ∈ s.g.outgoing s.PresentState.Id, ∀ r ∈ l.Rules, r.1 = "eq" :=
    fun l hl => (hsingle l hl).2
  by_cases hex : ∃ l ∈ s.g.outgoing s.PresentState.Id, ∃ r ∈ l.Rules, r.2 = e
  · obtain ⟨l, hl, hle⟩ := hex
    obtain ⟨n, hn, hnid⟩ := hg.node_of_outgoing hl
    have hT : s.g.Node n.Id = some n := by rw [hnid]; exact hn
    have hto : ∀ l1 ∈ s.g.outgoing s.PresentState.Id, l1.T.Id = n.Id →
        ∃ r ∈ l1.Rules, r.2 = e := by
      intro l1 hl1 ht
      have : l1 = l := htarget l1 hl1 l hl (ht.trans hnid)
      rw [this]
      exact hle
    have hother : ∀ l1 ∈ s.g.outgoing s.PresentState.Id, l1.T.Id ≠ n.Id →
        ∀ r ∈ l1.Rules, r.2 ≠ e := by
      intro l1 hl1 ht r hr hre
      have : l1 = l := hone l1 hl1 l hl ⟨r, hr, hre⟩ hle
      exact ht (by rw [this, hnid])
    have hmem : n.Id ∈ s.g.fromKeys s.PresentState.Id :=
      DirectedGraph.mem_fromKeys.mpr ⟨l, hl, hnid.symm⟩
    rw [FireEvent_moves h1 hg hT heq hto hother hmem,
      FireEvent_moves h2 hg hT heq hto hother hmem]
    exact ⟨rfl, _, rfl⟩
  · have hall : ∀ l ∈ s.g.outgoing s.PresentState.Id, ∀ r ∈ l.Rules, r.1 = "eq" ∧ r.2 ≠ e :=
      fun l hl r hr => ⟨heq l hl r hr, fun hre => hex ⟨l, hl, r, hr, hre⟩⟩
    rw [FireEvent_stays h1 hg hall, FireEvent_stays h2 hg hall]
    exact ⟨rfl, _, rfl⟩

/-- C19, witness: in the turnstile, `coin` from `locked` gives the same result in stored
order and in reverse order. -/
theorem FireEvent_order_independent_witness :
    ∃ c m, turnstile =
        some (c, m, ⟨0, Any.string "locked"⟩, ⟨1, Any.string "unlocked"⟩) ∧
      m.FireEvent Sched.stored "coin" = m.FireEvent Sched.reversed "coin" := by
  refine ⟨_, _, rfl, ?_⟩
  exact (FireEvent_order_independent Sched.stored Sched.reversed Sched.stored_valid
    Sched.reversed_valid _ (by decide) "coin" (by decide) (by decide) (by decide)).1

end FSM
